import Mathlib

/-!
Verification of the determinization and minimization kernel of
`pire/determine.h` (the Pire regular-expression library).

The C++ source is shallowly embedded:

* `Determine` models `Pire::Impl::Determine` (src/pire/determine.h).
  A determination task is a structure of pure functions; the driver
  returns the pair (result flag, sequence of sink calls), where a sink
  call is either `AcceptStates` or `Connect`.  The BFS loop is written
  with an explicit fuel parameter; `maxSize + 2` iterations are provably
  enough (each iteration either consumes one budget unit per inserted
  state or advances the scan pointer), so the fuel never runs out on the
  paths the source can take.
* `Minimize` models `Pire::Impl::Minimize`.  The `Partition<T, Eq>`
  data structure lives in `partition.h`, which is not part of the
  sources; it is modelled from the specification (spec section 4.4).

Machine integers (`size_t`, `Char`) are modelled as `Nat`; all the
quantities involved are small positive counters in the source, with no
overflowing arithmetic on the relevant paths.
-/

namespace Pire

/-- A single alphabet-partition entry as iterated by `task.Letters()`:
`(representative char, (class index, member chars))`, matching
`letter.first`, `letter.second.first`, `letter.second.second`. -/
abbrev Letter := Nat × Nat × List Nat

/-- One sink call made by `Determine` back into the task:
`AcceptStates(states)` or `Connect(from, to, letter)`. -/
inductive Sink (σ : Type) where
  | acceptStates (states : List σ)
  | connect (src dst letter : Nat)
  deriving DecidableEq

/-- A determination task (the `DetermineTask` interface of the source):
initial state, next-state function, letter partition, and the
`IsRequired` filter. -/
structure DetTask (σ : Type) where
  initial : σ
  next : σ → Nat → σ
  letters : List Letter
  isRequired : σ → Bool

/-- `invstates.find(x)`: the index of the first occurrence of `x` in the
discovery list, modelling the inverse state map (which is kept in exact
correspondence with the `states` vector by the source). -/
def findState {σ : Type} [DecidableEq σ] (x : σ) : List σ → Option Nat
  | [] => none
  | y :: ys => if y = x then some 0 else (findState x ys).map (· + 1)

/-- The inner loop of `Determine` over one state's letter classes:
build the transition row, inserting newly discovered states and spending
the budget.  Returns `none` on `return task.Failure()` (budget
exhausted), otherwise the extended state list, the remaining budget and
the finished row. -/
def detRow {σ : Type} [DecidableEq σ] (next : σ → Nat → σ) (s : σ) :
    List Letter → List σ → Nat → List Nat → Option (List σ × Nat × List Nat)
  | [], states, budget, row => some (states, budget, row)
  | l :: rest, states, budget, row =>
    let newState := next s l.1
    match findState newState states with
    | some i => detRow next s rest states budget (row.set l.2.1 i)
    | none =>
      match budget with
      | 0 => none
      | b + 1 => detRow next s rest (states ++ [newState]) b (row.set l.2.1 states.length)

/-- The outer BFS loop of `Determine`, with an explicit fuel parameter.
`none` means the fuel ran out (provably impossible from `Determine`'s
call site); `some none` is `task.Failure()`; `some (some _)` carries the
discovered states, the transition rows and the `stateIndices` vector. -/
def detLoop {σ : Type} [DecidableEq σ] (task : DetTask σ) :
    Nat → Nat → List σ → Nat → List (List Nat) → List Nat →
    Option (Option (List σ × List (List Nat) × List Nat))
  | 0, _, _, _, _, _ => none
  | fuel + 1, stateIdx, states, budget, rows, idxs =>
    if h : stateIdx < states.length then
      if task.isRequired (states.get ⟨stateIdx, h⟩) then
        match detRow task.next (states.get ⟨stateIdx, h⟩) task.letters states budget
            (List.replicate task.letters.length 0) with
        | none => some none
        | some (states2, budget2, row) =>
          detLoop task fuel (stateIdx + 1) states2 budget2 (rows ++ [row]) (idxs ++ [stateIdx])
      else detLoop task fuel (stateIdx + 1) states budget rows idxs
    else some (some (states, rows, idxs))

/-- The `invletters` vector: representative char of every class index. -/
def invLetters (letters : List Letter) : List Nat :=
  letters.foldl (fun acc l => acc.set l.2.1 l.1) (List.replicate letters.length 0)

/-- The sequence of `Connect` calls emitted after `AcceptStates`: outer
loop over the recorded rows paired with their `stateIndices` entries,
inner loop over the row in class-index order, paired with `invletters`. -/
def connectTrace {σ : Type} (rows : List (List Nat)) (idxs : List Nat)
    (invl : List Nat) : List (Sink σ) :=
  (rows.zip idxs).flatMap fun p => (p.1.zip invl).map fun q => Sink.connect p.2 q.1 q.2

/-- `Pire::Impl::Determine(task, maxSize)`.  Returns the result flag
(`Success`/`Failure`) together with the full sequence of sink calls made
back into the task. -/
def Determine {σ : Type} [DecidableEq σ] (task : DetTask σ) (maxSize : Nat) :
    Bool × List (Sink σ) :=
  match detLoop task (maxSize + 2) 0 [task.initial] maxSize [] [] with
  | some (some (states, rows, idxs)) =>
    (true, Sink.acceptStates states :: connectTrace rows idxs (invLetters task.letters))
  | _ => (false, [])

/-- Well-formedness of the letters partition assumed by the source:
class indices are distinct and dense in `[0, K)` (spec section 6). -/
def LettersWF (letters : List Letter) : Prop :=
  (letters.map fun l => l.2.1).Nodup ∧ ∀ l ∈ letters, l.2.1 < letters.length

/-- The source of a sink call, when it is a `Connect`. -/
def srcOf {σ : Type} : Sink σ → Option Nat
  | Sink.acceptStates _ => none
  | Sink.connect f _ _ => some f

/-- Reachability from index 0 along the emitted `Connect` edges. -/
inductive ReachC {σ : Type} (conns : List (Sink σ)) : Nat → Prop where
  | zero : ReachC conns 0
  | step {f t l : Nat} : ReachC conns f → Sink.connect f t l ∈ conns → ReachC conns t

/-- Modelled from the spec: the full alphabet size `MaxChar` (a
configuration constant of the surrounding library, not under `src/`;
spec section 6 gives "commonly 257 or 260"). -/
def MaxChar : Nat := 260

/-- A minimization task (the additional interface used by `Minimize`):
state count, `IsDetermined`, the letters partition, the transition
function over state indices, and `SameClasses`. -/
structure MinTask where
  size : Nat
  isDetermined : Bool
  letters : List Letter
  next : Nat → Nat → Nat
  sameClasses : Nat → Nat → Bool

/-- The flat `DeterminedTransitions` table built by `Minimize`: for each
letter class, `Next(from, representative)` is computed once per state
and fanned out to every member char at index `from * MaxChar + char`.
Modelled as a function on indices (later writes shadow earlier ones,
matching the sequential fills of the source). -/
def buildDetTran (t : MinTask) : Nat → Nat :=
  t.letters.foldl
    (fun tbl l =>
      (List.range t.size).foldl
        (fun tbl f =>
          l.2.2.foldl
            (fun tbl ch => fun i => if i = f * MaxChar + ch then t.next f l.1 else tbl i)
            tbl)
        tbl)
    (fun _ => 0)

/-- `MinimizeEquality` with a task and no previous class map (the
initial seeding): only `SameClasses` is consulted. -/
def eqInitialM (t : MinTask) (a b : Nat) : Bool := t.sameClasses a b

/-- `MinimizeEquality` with a previous class map and no task (the
refinement rounds): same previous class, and same previous class of the
successor under every distinct letter. -/
def eqSplitM (tbl : Nat → Nat) (dl : List Nat) (prev : List Nat) (a b : Nat) : Bool :=
  decide (prev.getD a 0 = prev.getD b 0) &&
    dl.all fun l => decide (prev.getD (tbl (a * MaxChar + l)) 0 = prev.getD (tbl (b * MaxChar + l)) 0)

/-- Modelled from the spec: `Partition::Append` (partition.h is not
under `src/`; spec section 4.4): insert `x`, merging it into the first
class holding some `Eq`-equivalent member, else start a new class. -/
def pAppend (eq : Nat → Nat → Bool) (classes : List (List Nat)) (x : Nat) : List (List Nat) :=
  match classes with
  | [] => [[x]]
  | c :: rest => if c.any (fun y => eq x y) then (c ++ [x]) :: rest else c :: pAppend eq rest x

/-- Modelled from the spec: splitting one class under a new equivalence
(spec section 4.4): its members are re-partitioned in order. -/
def pSplitClass (eq : Nat → Nat → Bool) (c : List Nat) : List (List Nat) :=
  c.foldl (pAppend eq) []

/-- Modelled from the spec: `Partition::Split` (spec section 4.4):
every class is re-partitioned under the new equivalence. -/
def pSplit (eq : Nat → Nat → Bool) (classes : List (List Nat)) : List (List Nat) :=
  classes.flatMap (pSplitClass eq)

/-- Modelled from the spec: `Partition::Representative` (spec section
4.4): the canonical (first) member of the class holding `x`. -/
def pRepr (classes : List (List Nat)) (x : Nat) : Nat :=
  match classes.find? (fun c => c.any (fun y => y == x)) with
  | some c => c.headD x
  | none => x

/-- The `StateClassMap` recomputed by `UpdateStateClassMap`: state `st`
maps to `Representative(st)` of the current partition. -/
def reprMap (classes : List (List Nat)) (n : Nat) : List Nat :=
  (List.range n).map (pRepr classes)

/-- The refinement loop of `Minimize`: `while (UpdateStateClassMap(clMap,
last)) last.Split(...)`, with fuel.  The comparison `newMap = clMap`
is exactly the `changed` flag of `UpdateStateClassMap` (which rewrites
`clMap` to the representative map and reports whether anything moved). -/
def minLoop (tbl : Nat → Nat) (dl : List Nat) (n : Nat) :
    Nat → List Nat → List (List Nat) → Option (List (List Nat))
  | 0, _, _ => none
  | fuel + 1, clMap, classes =>
    let newMap := reprMap classes n
    if newMap = clMap then some classes
    else minLoop tbl dl n fuel newMap (pSplit (eqSplitM tbl dl newMap) classes)

/-- The initial partition of `Minimize`: every state index appended
under the `SameClasses`-only equality. -/
def initClasses (t : MinTask) : List (List Nat) :=
  (List.range t.size).foldl (pAppend (eqInitialM t)) []

/-- `Pire::Impl::Minimize(task)`: `none` is `task.Failure()` (or a
fuel overrun of the refinement loop, which is proved impossible);
`some p` means `task.AcceptPartition(p)` was called and `Success()`
returned. -/
def Minimize (t : MinTask) : Option (List (List Nat)) :=
  if t.isDetermined then
    minLoop (buildDetTran t) (t.letters.map fun l => l.1) t.size (t.size + 1)
      (List.replicate t.size 0) (initClasses t)
  else none

/-- Two states lie in one class of a partition. -/
def sameCl (classes : List (List Nat)) (a b : Nat) : Prop :=
  ∃ c ∈ classes, a ∈ c ∧ b ∈ c

/-- Structural invariant of the minimization partitions: the classes
jointly hold each state index exactly once, and none is empty. -/
def PInv (n : Nat) (classes : List (List Nat)) : Prop :=
  List.Perm classes.flatten (List.range n) ∧ ∀ c ∈ classes, c ≠ []

/-- Pairwise truth of a predicate inside every class. -/
def PairwiseIn (eq : Nat → Nat → Bool) (classes : List (List Nat)) : Prop :=
  ∀ c ∈ classes, ∀ a ∈ c, ∀ b ∈ c, eq a b = true

/-- The fixpoint property of the refinement loop: states sharing a class
have, for every distinct letter, successors sharing a representative. -/
def FixP (tbl : Nat → Nat) (dl : List Nat) (classes : List (List Nat)) : Prop :=
  ∀ a b, sameCl classes a b →
    ∀ l ∈ dl, pRepr classes (tbl (a * MaxChar + l)) = pRepr classes (tbl (b * MaxChar + l))

/-- Example task: two letter classes, three reachable states, the last
of which is not required (`IsRequired` returns false on it). -/
def exTaskA : DetTask Nat where
  initial := 0
  next := fun s c => if c = 97 then (if s = 0 then 1 else 2) else 0
  letters := [(97, 0, [97]), (98, 1, [98])]
  isRequired := fun s => decide (s ≠ 2)

/-- Example task with an unbounded chain of states: every budget is
exceeded. -/
def exTaskB : DetTask Nat where
  initial := 0
  next := fun s _ => s + 1
  letters := [(97, 0, [97])]
  isRequired := fun _ => true

/-- Example task whose initial state is not required. -/
def exTaskC : DetTask Nat where
  initial := 0
  next := fun s _ => s
  letters := [(97, 0, [97])]
  isRequired := fun _ => false

/-- Example minimization task: a three-state DFA over one letter class
in which states 1 and 2 are behaviourally equivalent. -/
def exMin : MinTask where
  size := 3
  isDetermined := true
  letters := [(97, 0, [97])]
  next := fun f _ => if f = 0 then 1 else 2
  sameClasses := fun a b => decide ((a = 0) ↔ (b = 0))

/-- Example non-determined minimization task. -/
def exMinND : MinTask where
  size := 2
  isDetermined := false
  letters := [(97, 0, [97])]
  next := fun _ _ => 0
  sameClasses := fun _ _ => true

/-- The Connect trace that `Determine exTaskA 10` emits. -/
def exConnsA : List (Sink Nat) :=
  [Sink.connect 0 1 97, Sink.connect 0 0 98, Sink.connect 1 2 97, Sink.connect 1 0 98]

/-! ### List helper lemmas -/

theorem getD_set_self {l : List Nat} : ∀ {p : Nat}, p < l.length →
    ∀ {v d : Nat}, (l.set p v).getD p d = v := by
  induction l with
  | nil => intro p hp; simp at hp
  | cons a l ih =>
    intro p hp v d
    cases p with
    | zero => rfl
    | succ p => exact ih (by simpa using hp)

theorem getD_set_ne {l : List Nat} : ∀ {p q : Nat}, p ≠ q →
    ∀ {v d : Nat}, (l.set p v).getD q d = l.getD q d := by
  induction l with
  | nil => intro p q _ v d; simp [List.getD]
  | cons a l ih =>
    intro p q hpq v d
    cases p with
    | zero =>
      cases q with
      | zero => exact absurd rfl hpq
      | succ q => rfl
    | succ p =>
      cases q with
      | zero => rfl
      | succ q => exact ih (fun h => hpq (by omega))

theorem getD_mem {l : List Nat} : ∀ {p : Nat}, p < l.length →
    ∀ {d : Nat}, l.getD p d ∈ l := by
  induction l with
  | nil => intro p hp; simp at hp
  | cons a l ih =>
    intro p hp d
    cases p with
    | zero => exact List.mem_cons_self a l
    | succ p => exact List.mem_cons_of_mem a (ih (by simpa using hp))

theorem getD_append_left {σ : Type} {l l' : List σ} : ∀ {p : Nat}, p < l.length →
    ∀ {d : σ}, (l ++ l').getD p d = l.getD p d := by
  induction l with
  | nil => intro p hp; simp at hp
  | cons a l ih =>
    intro p hp d
    cases p with
    | zero => rfl
    | succ p => exact ih (by simpa using hp)

theorem getD_eq_get {σ : Type} {l : List σ} : ∀ {p : Nat} (hp : p < l.length) {d : σ},
    l.getD p d = l.get ⟨p, hp⟩ := by
  induction l with
  | nil => intro p hp; simp at hp
  | cons a l ih =>
    intro p hp d
    cases p with
    | zero => rfl
    | succ p => exact ih (by simpa using hp)

/-! ### findState lemmas -/

theorem findState_some {σ : Type} [DecidableEq σ] {x : σ} {l : List σ} :
    ∀ {i : Nat}, findState x l = some i → i < l.length ∧ ∀ d, l.getD i d = x := by
  induction l with
  | nil => intro i h; simp [findState] at h
  | cons y ys ih =>
    intro i h
    by_cases hyx : y = x
    · simp [findState, hyx] at h
      subst h
      exact ⟨Nat.succ_pos _, fun d => by simpa using hyx⟩
    · simp [findState, hyx] at h
      obtain ⟨j, hj, hji⟩ := h
      obtain ⟨hlt, hget⟩ := ih hj
      subst hji
      exact ⟨by simpa using Nat.succ_lt_succ hlt, fun d => hget d⟩

theorem findState_none {σ : Type} [DecidableEq σ] {x : σ} {l : List σ}
    (h : findState x l = none) : x ∉ l := by
  induction l with
  | nil => simp
  | cons y ys ih =>
    by_cases hyx : y = x
    · simp [findState, hyx] at h
    · simp [findState, hyx] at h
      simp [ih h, Ne.symm hyx]

/-! ### detRow lemmas -/

theorem detRow_shape {σ : Type} [DecidableEq σ] {next : σ → Nat → σ} {s : σ} :
    ∀ {ls : List Letter} {states S2 : List σ} {b b2 : Nat} {row row2 : List Nat},
    detRow next s ls states b row = some (S2, b2, row2) →
    (∃ tail, S2 = states ++ tail) ∧ S2.length + b2 = states.length + b ∧ b2 ≤ b ∧
      row2.length = row.length := by
  intro ls
  induction ls with
  | nil =>
    intro states S2 b b2 row row2 h
    simp only [detRow, Option.some.injEq, Prod.mk.injEq] at h
    obtain ⟨h1, h2, h3⟩ := h
    subst h1; subst h2; subst h3
    exact ⟨⟨[], by simp⟩, by omega, Nat.le_refl _, rfl⟩
  | cons l rest ih =>
    intro states S2 b b2 row row2 h
    simp only [detRow] at h
    rcases hf : findState (next s l.1) states with _ | i
    · rw [hf] at h
      cases b with
      | zero => simp at h
      | succ b' =>
        simp only at h
        obtain ⟨⟨tail, htail⟩, hlen, hle, hrow⟩ := ih h
        refine ⟨⟨next s l.1 :: tail, by simpa using htail⟩, ?_, by omega, by simpa using hrow⟩
        simp only [htail, List.length_append, List.length_cons] at hlen ⊢
        simp at hlen ⊢
        omega
    · rw [hf] at h
      simp only at h
      obtain ⟨hext, hlen, hle, hrow⟩ := ih h
      exact ⟨hext, hlen, hle, by simpa using hrow⟩

theorem detRow_budget {σ : Type} [DecidableEq σ] {next : σ → Nat → σ} {s : σ} :
    ∀ {ls : List Letter} {states S2 : List σ} {b b2 : Nat} {row row2 : List Nat},
    detRow next s ls states b row = some (S2, b2, row2) →
    ∀ b', b - b2 ≤ b' → detRow next s ls states b' row = some (S2, b' - (b - b2), row2) := by
  intro ls
  induction ls with
  | nil =>
    intro states S2 b b2 row row2 h b' hb'
    simp only [detRow, Option.some.injEq, Prod.mk.injEq] at h
    obtain ⟨h1, h2, h3⟩ := h
    subst h1; subst h2; subst h3
    simp [detRow, Nat.sub_self]
  | cons l rest ih =>
    intro states S2 b b2 row row2 h b' hb'
    simp only [detRow] at h
    simp only [detRow]
    rcases hf : findState (next s l.1) states with _ | i
    · rw [hf] at h
      cases b with
      | zero => simp at h
      | succ b0 =>
        simp only at h
        have hle : b2 ≤ b0 := (detRow_shape h).2.2.1
        have hcons : b0 + 1 - b2 = (b0 - b2) + 1 := by omega
        rw [hcons] at hb'
        cases b' with
        | zero => omega
        | succ b1 =>
          simp only [hf]
          have := ih h b1 (by omega)
          rw [this]
          have : b1 - (b0 - b2) = b1 + 1 - (b0 + 1 - b2) := by omega
          rw [this]
    · rw [hf] at h
      simp only [hf]
      exact ih h b' hb'

theorem detRow_nodup {σ : Type} [DecidableEq σ] {next : σ → Nat → σ} {s : σ} :
    ∀ {ls : List Letter} {states S2 : List σ} {b b2 : Nat} {row row2 : List Nat},
    detRow next s ls states b row = some (S2, b2, row2) →
    states.Nodup → S2.Nodup := by
  intro ls
  induction ls with
  | nil =>
    intro states S2 b b2 row row2 h hnd
    simp only [detRow, Option.some.injEq, Prod.mk.injEq] at h
    obtain ⟨h1, _, _⟩ := h
    subst h1; exact hnd
  | cons l rest ih =>
    intro states S2 b b2 row row2 h hnd
    simp only [detRow] at h
    rcases hf : findState (next s l.1) states with _ | i
    · rw [hf] at h
      cases b with
      | zero => simp at h
      | succ b0 =>
        simp only at h
        refine ih h ?_
        have hnin := findState_none hf
        simpa [List.nodup_append] using ⟨hnd, fun hmem => hnin hmem⟩
    · rw [hf] at h
      exact ih h hnd

theorem detRow_entries {σ : Type} [DecidableEq σ] {next : σ → Nat → σ} {s : σ} :
    ∀ {ls : List Letter} {states S2 : List σ} {b b2 : Nat} {row row2 : List Nat},
    detRow next s ls states b row = some (S2, b2, row2) →
    (∀ x ∈ row, x < states.length) → ∀ x ∈ row2, x < S2.length := by
  intro ls
  induction ls with
  | nil =>
    intro states S2 b b2 row row2 h hb
    simp only [detRow, Option.some.injEq, Prod.mk.injEq] at h
    obtain ⟨h1, _, h3⟩ := h
    subst h1; subst h3; exact hb
  | cons l rest ih =>
    intro states S2 b b2 row row2 h hb
    simp only [detRow] at h
    rcases hf : findState (next s l.1) states with _ | i
    · rw [hf] at h
      cases b with
      | zero => simp at h
      | succ b0 =>
        simp only at h
        refine ih h ?_
        intro x hx
        rcases List.mem_or_eq_of_mem_set hx with hx' | hx'
        · have := hb x hx'
          simp only [List.length_append, List.length_singleton]
          omega
        · subst hx'
          simp only [List.length_append, List.length_singleton]
          omega
    · rw [hf] at h
      simp only at h
      refine ih h ?_
      intro x hx
      rcases List.mem_or_eq_of_mem_set hx with hx' | hx'
      · exact hb x hx'
      · subst hx'
        exact (findState_some hf).1

theorem detRow_stable {σ : Type} [DecidableEq σ] {next : σ → Nat → σ} {s : σ} :
    ∀ {ls : List Letter} {states S2 : List σ} {b b2 : Nat} {row row2 : List Nat},
    detRow next s ls states b row = some (S2, b2, row2) →
    ∀ p, (p ∉ ls.map fun l => l.2.1) → row2.getD p 0 = row.getD p 0 := by
  intro ls
  induction ls with
  | nil =>
    intro states S2 b b2 row row2 h p _
    simp only [detRow, Option.some.injEq, Prod.mk.injEq] at h
    obtain ⟨_, _, h3⟩ := h
    subst h3; rfl
  | cons l rest ih =>
    intro states S2 b b2 row row2 h p hp
    simp only [List.map_cons, List.mem_cons, not_or] at hp
    obtain ⟨hp1, hp2⟩ := hp
    simp only [detRow] at h
    rcases hf : findState (next s l.1) states with _ | i
    · rw [hf] at h
      cases b with
      | zero => simp at h
      | succ b0 =>
        simp only at h
        rw [ih h p hp2]
        exact getD_set_ne (fun he => hp1 he.symm)
    · rw [hf] at h
      simp only at h
      rw [ih h p hp2]
      exact getD_set_ne (fun he => hp1 he.symm)

theorem detRow_covers {σ : Type} [DecidableEq σ] {next : σ → Nat → σ} {s : σ} :
    ∀ {ls : List Letter} {states S2 : List σ} {b b2 : Nat} {row row2 : List Nat},
    detRow next s ls states b row = some (S2, b2, row2) →
    (ls.map fun l => l.2.1).Nodup → (∀ l ∈ ls, l.2.1 < row.length) →
    ∀ j, states.length ≤ j → j < S2.length → j ∈ row2 := by
  intro ls
  induction ls with
  | nil =>
    intro states S2 b b2 row row2 h _ _ j hj1 hj2
    simp only [detRow, Option.some.injEq, Prod.mk.injEq] at h
    obtain ⟨h1, _, _⟩ := h
    subst h1; omega
  | cons l rest ih =>
    intro states S2 b b2 row row2 h hnd hbnd j hj1 hj2
    simp only [List.map_cons, List.nodup_cons] at hnd
    obtain ⟨hnd1, hnd2⟩ := hnd
    simp only [detRow] at h
    rcases hf : findState (next s l.1) states with _ | i
    · rw [hf] at h
      cases b with
      | zero => simp at h
      | succ b0 =>
        simp only at h
        rcases Nat.lt_or_ge j (states.length + 1) with hj | hj
        · -- j is the state inserted at this letter
          have hjeq : j = states.length := by omega
          subst hjeq
          have hset : ((row.set l.2.1 states.length).getD l.2.1 0) = states.length :=
            getD_set_self (hbnd l (List.mem_cons_self _ _))
          have hstab := detRow_stable h l.2.1 hnd1
          have hval : row2.getD l.2.1 0 = states.length := by rw [hstab, hset]
          have hlen : row2.length = row.length :=
            (detRow_shape h).2.2.2.trans (by simp)
          have hlt : l.2.1 < row2.length := by
            rw [hlen]; exact hbnd l (List.mem_cons_self _ _)
          have := getD_mem hlt (d := 0)
          rwa [hval] at this
        · refine ih h hnd2 ?_ j (by simpa using hj) hj2
          intro l' hl'
          simpa using hbnd l' (List.mem_cons_of_mem _ hl')
    · rw [hf] at h
      simp only at h
      refine ih h hnd2 ?_ j hj1 hj2
      intro l' hl'
      simpa using hbnd l' (List.mem_cons_of_mem _ hl')


/-! ### detLoop lemmas -/

theorem detLoop_fuel {σ : Type} [DecidableEq σ] {task : DetTask σ} :
    ∀ {fuel i : Nat} {states : List σ} {b : Nat} {rows : List (List Nat)} {idxs : List Nat}
      {r : Option (List σ × List (List Nat) × List Nat)},
    detLoop task fuel i states b rows idxs = some r →
    ∀ fuel', fuel ≤ fuel' → detLoop task fuel' i states b rows idxs = some r := by
  intro fuel
  induction fuel with
  | zero =>
    intro i states b rows idxs r h
    simp [detLoop] at h
  | succ f ih =>
    intro i states b rows idxs r h fuel' hf
    obtain ⟨f', rfl⟩ : ∃ f', fuel' = f' + 1 := ⟨fuel' - 1, by omega⟩
    simp only [detLoop] at h ⊢
    by_cases hlt : i < states.length
    · rw [dif_pos hlt] at h ⊢
      by_cases hreq : task.isRequired (states.get ⟨i, hlt⟩)
      · rw [if_pos hreq] at h ⊢
        rcases hd : detRow task.next (states.get ⟨i, hlt⟩) task.letters states b
            (List.replicate task.letters.length 0) with _ | ⟨S2, b2, row⟩
        · rw [hd] at h
          simp only at h ⊢
          exact h
        · rw [hd] at h
          simp only at h ⊢
          exact ih h f' (by omega)
      · rw [if_neg hreq] at h ⊢
        exact ih h f' (by omega)
    · rw [dif_neg hlt] at h ⊢
      exact h

theorem detLoop_agree {σ : Type} [DecidableEq σ] {task : DetTask σ}
    {fuel1 fuel2 i : Nat} {states : List σ} {b : Nat} {rows : List (List Nat)} {idxs : List Nat}
    {r1 r2 : Option (List σ × List (List Nat) × List Nat)}
    (h1 : detLoop task fuel1 i states b rows idxs = some r1)
    (h2 : detLoop task fuel2 i states b rows idxs = some r2) : r1 = r2 := by
  have e1 := detLoop_fuel h1 (fuel1 + fuel2) (by omega)
  have e2 := detLoop_fuel h2 (fuel1 + fuel2) (by omega)
  rw [e1] at e2
  exact Option.some.inj e2

theorem detLoop_enough {σ : Type} [DecidableEq σ] {task : DetTask σ} :
    ∀ {fuel i : Nat} {states : List σ} {b : Nat} {rows : List (List Nat)} {idxs : List Nat},
    states.length - i + b + 1 ≤ fuel → detLoop task fuel i states b rows idxs ≠ none := by
  intro fuel
  induction fuel with
  | zero => intro i states b rows idxs hle; omega
  | succ f ih =>
    intro i states b rows idxs hle
    simp only [detLoop]
    by_cases hlt : i < states.length
    · rw [dif_pos hlt]
      by_cases hreq : task.isRequired (states.get ⟨i, hlt⟩)
      · rw [if_pos hreq]
        rcases hd : detRow task.next (states.get ⟨i, hlt⟩) task.letters states b
            (List.replicate task.letters.length 0) with _ | ⟨S2, b2, row⟩
        · simp
        · simp only
          obtain ⟨⟨tail, htail⟩, hlen, hble, _⟩ := detRow_shape hd
          refine ih ?_
          have hS2 : states.length ≤ S2.length := by
            subst htail; simp
          omega
      · rw [if_neg hreq]
        refine ih ?_
        omega
    · rw [dif_neg hlt]
      simp

theorem detLoop_extends {σ : Type} [DecidableEq σ] {task : DetTask σ} :
    ∀ {fuel i : Nat} {states : List σ} {b : Nat} {rows : List (List Nat)} {idxs : List Nat}
      {S : List σ} {T : List (List Nat)} {I : List Nat},
    detLoop task fuel i states b rows idxs = some (some (S, T, I)) →
    (∃ tail, S = states ++ tail) ∧ (∃ rt, T = rows ++ rt) ∧ (∃ it, I = idxs ++ it) := by
  intro fuel
  induction fuel with
  | zero =>
    intro i states b rows idxs S T I h
    simp [detLoop] at h
  | succ f ih =>
    intro i states b rows idxs S T I h
    simp only [detLoop] at h
    by_cases hlt : i < states.length
    · rw [dif_pos hlt] at h
      by_cases hreq : task.isRequired (states.get ⟨i, hlt⟩)
      · rw [if_pos hreq] at h
        rcases hd : detRow task.next (states.get ⟨i, hlt⟩) task.letters states b
            (List.replicate task.letters.length 0) with _ | ⟨S2, b2, row⟩
        · rw [hd] at h
          simp at h
        · rw [hd] at h
          simp only at h
          obtain ⟨⟨t1, ht1⟩, ⟨t2, ht2⟩, ⟨t3, ht3⟩⟩ := ih h
          obtain ⟨t0, ht0⟩ := (detRow_shape hd).1
          exact ⟨⟨t0 ++ t1, by simp [ht1, ht0]⟩, ⟨row :: t2, by simp [ht2]⟩,
            ⟨i :: t3, by simp [ht3]⟩⟩
      · rw [if_neg hreq] at h
        exact ih h
    · rw [dif_neg hlt] at h
      simp only [Option.some.injEq, Prod.mk.injEq] at h
      obtain ⟨h1, h2, h3⟩ := h
      subst h1; subst h2; subst h3
      exact ⟨⟨[], by simp⟩, ⟨[], by simp⟩, ⟨[], by simp⟩⟩

theorem detLoop_budget {σ : Type} [DecidableEq σ] {task : DetTask σ} :
    ∀ {fuel i : Nat} {states : List σ} {b : Nat} {rows : List (List Nat)} {idxs : List Nat}
      {S : List σ} {T : List (List Nat)} {I : List Nat},
    detLoop task fuel i states b rows idxs = some (some (S, T, I)) →
    S.length ≤ states.length + b ∧
      ∀ b', S.length - states.length ≤ b' →
        detLoop task fuel i states b' rows idxs = some (some (S, T, I)) := by
  intro fuel
  induction fuel with
  | zero =>
    intro i states b rows idxs S T I h
    simp [detLoop] at h
  | succ f ih =>
    intro i states b rows idxs S T I h
    simp only [detLoop] at h
    by_cases hlt : i < states.length
    · rw [dif_pos hlt] at h
      by_cases hreq : task.isRequired (states.get ⟨i, hlt⟩)
      · rw [if_pos hreq] at h
        rcases hd : detRow task.next (states.get ⟨i, hlt⟩) task.letters states b
            (List.replicate task.letters.length 0) with _ | ⟨S2, b2, row⟩
        · rw [hd] at h
          simp at h
        · rw [hd] at h
          simp only at h
          obtain ⟨⟨t0, ht0⟩, hlen, hble, _⟩ := detRow_shape hd
          obtain ⟨hbound, hshift⟩ := ih h
          obtain ⟨t1, ht1⟩ := (detLoop_extends h).1
          have hlS2 : states.length ≤ S2.length := by subst ht0; simp
          have hlS : S2.length ≤ S.length := by subst ht1; simp
          constructor
          · omega
          · intro b2' hb2'
            simp only [detLoop]
            rw [dif_pos hlt, if_pos hreq]
            have hrb := detRow_budget hd b2' (by omega)
            rw [hrb]
            simp only
            have := hshift (b2' - (b - b2)) (by omega)
            exact this
      · rw [if_neg hreq] at h
        obtain ⟨hbound, hshift⟩ := ih h
        obtain ⟨t1, ht1⟩ := (detLoop_extends h).1
        have hlS : states.length ≤ S.length := by subst ht1; simp
        constructor
        · omega
        · intro b2' hb2'
          simp only [detLoop]
          rw [dif_pos hlt, if_neg hreq]
          exact hshift b2' hb2'
    · rw [dif_neg hlt] at h
      simp only [Option.some.injEq, Prod.mk.injEq] at h
      obtain ⟨h1, h2, h3⟩ := h
      subst h1; subst h2; subst h3
      constructor
      · omega
      · intro b2' hb2'
        simp only [detLoop]
        rw [dif_neg hlt]

theorem detLoop_nodup {σ : Type} [DecidableEq σ] {task : DetTask σ} :
    ∀ {fuel i : Nat} {states : List σ} {b : Nat} {rows : List (List Nat)} {idxs : List Nat}
      {S : List σ} {T : List (List Nat)} {I : List Nat},
    detLoop task fuel i states b rows idxs = some (some (S, T, I)) →
    states.Nodup → S.Nodup := by
  intro fuel
  induction fuel with
  | zero =>
    intro i states b rows idxs S T I h
    simp [detLoop] at h
  | succ f ih =>
    intro i states b rows idxs S T I h hnd
    simp only [detLoop] at h
    by_cases hlt : i < states.length
    · rw [dif_pos hlt] at h
      by_cases hreq : task.isRequired (states.get ⟨i, hlt⟩)
      · rw [if_pos hreq] at h
        rcases hd : detRow task.next (states.get ⟨i, hlt⟩) task.letters states b
            (List.replicate task.letters.length 0) with _ | ⟨S2, b2, row⟩
        · rw [hd] at h
          simp at h
        · rw [hd] at h
          simp only at h
          exact ih h (detRow_nodup hd hnd)
      · rw [if_neg hreq] at h
        exact ih h hnd
    · rw [dif_neg hlt] at h
      simp only [Option.some.injEq, Prod.mk.injEq] at h
      obtain ⟨h1, _, _⟩ := h
      subst h1; exact hnd


/-! ### Determine: case analysis and the budget claims -/

theorem determine_cases {σ : Type} [DecidableEq σ] (task : DetTask σ) (m : Nat) :
    (∃ S T I, detLoop task (m + 2) 0 [task.initial] m [] [] = some (some (S, T, I)) ∧
      Determine task m =
        (true, Sink.acceptStates S :: connectTrace T I (invLetters task.letters))) ∨
    (detLoop task (m + 2) 0 [task.initial] m [] [] = some none ∧
      Determine task m = (false, [])) := by
  have hne := @detLoop_enough _ _ task (m + 2) 0 [task.initial] m [] []
      (by simp only [List.length_singleton]; omega)
  rcases hd : detLoop task (m + 2) 0 [task.initial] m [] [] with _ | (_ | ⟨S, T, I⟩)
  · exact absurd hd hne
  · right
    refine ⟨rfl, ?_⟩
    simp [Determine, hd]
  · left
    exact ⟨S, T, I, rfl, by simp [Determine, hd]⟩

theorem determine_success_elim {σ : Type} [DecidableEq σ] {task : DetTask σ} {m : Nat}
    {tr : List (Sink σ)} (h : Determine task m = (true, tr)) :
    ∃ S T I, detLoop task (m + 2) 0 [task.initial] m [] [] = some (some (S, T, I)) ∧
      tr = Sink.acceptStates S :: connectTrace T I (invLetters task.letters) := by
  rcases determine_cases task m with ⟨S, T, I, hd, he⟩ | ⟨hd, he⟩
  · rw [he] at h
    simp only [Prod.mk.injEq, true_and] at h
    exact ⟨S, T, I, hd, h.symm⟩
  · rw [he] at h
    simp at h

/-- Claim C2: after a successful Determinize drive, the first element of
the vector handed to `AcceptStates` equals `task.Initial()` (the initial
state always gets index 0), including when `IsRequired(task.Initial())`
is false. -/
theorem determine_initial_first {σ : Type} [DecidableEq σ] (task : DetTask σ) (m : Nat)
    (tr : List (Sink σ)) (h : Determine task m = (true, tr)) :
    ∃ S conns, tr = Sink.acceptStates S :: conns ∧
      S.getD 0 task.initial = task.initial ∧ S ≠ [] := by
  obtain ⟨S, T, I, hd, htr⟩ := determine_success_elim h
  obtain ⟨tail, htail⟩ := (detLoop_extends hd).1
  refine ⟨S, connectTrace T I (invLetters task.letters), htr, ?_, ?_⟩
  · subst htail
    exact getD_append_left (by simp)
  · subst htail
    simp

/-- Claim C10: the vector passed to `AcceptStates` holds pairwise
distinct states: a `Next` result equal to an already discovered state
(including the initial one) reuses the existing index through the
inverse map instead of being appended again. -/
theorem determine_states_nodup {σ : Type} [DecidableEq σ] (task : DetTask σ) (m : Nat)
    (S : List σ) (conns : List (Sink σ))
    (h : Determine task m = (true, Sink.acceptStates S :: conns)) : S.Nodup := by
  obtain ⟨S0, T, I, hd, htr⟩ := determine_success_elim h
  have hS : S0 = S := by
    have h1 := htr
    simp only [List.cons.injEq, Sink.acceptStates.injEq] at h1
    exact h1.1.symm
  subst hS
  exact detLoop_nodup hd (by simp)

/-- Claim C7: budget monotonicity.  If Determinize succeeds with budget
`m1`, it succeeds with any larger budget `m2` and produces the identical
sequence of sink calls. -/
theorem determine_budget_monotone {σ : Type} [DecidableEq σ] (task : DetTask σ)
    (m1 m2 : Nat) (hm : m1 ≤ m2) (tr : List (Sink σ))
    (h : Determine task m1 = (true, tr)) : Determine task m2 = (true, tr) := by
  obtain ⟨S, T, I, hd, htr⟩ := determine_success_elim h
  obtain ⟨hbound, hshift⟩ := detLoop_budget hd
  simp only [List.length_singleton] at hbound
  have h2 : detLoop task (m1 + 2) 0 [task.initial] m2 [] [] = some (some (S, T, I)) :=
    hshift m2 (by simp only [List.length_singleton]; omega)
  have h3 := detLoop_fuel h2 (m2 + 2) (by omega)
  rw [htr]
  simp [Determine, h3]

/-- Claim C1: Determinize returns `Failure()` exactly when the number of
newly inserted states beyond the initial one would exceed `maxSize`, and
on that failure path no sink is invoked (the emitted call list is
empty). -/
theorem determine_budget_exact {σ : Type} [DecidableEq σ] (task : DetTask σ) (m : Nat) :
    ((Determine task m).1 = false → (Determine task m).2 = []) ∧
    ((Determine task m).1 = false ↔
      ∀ m' S conns, Determine task m' = (true, Sink.acceptStates S :: conns) →
        m + 1 < S.length) := by
  constructor
  · intro hfail
    rcases determine_cases task m with ⟨S, T, I, hd, he⟩ | ⟨hd, he⟩
    · rw [he] at hfail; simp at hfail
    · rw [he]
  · constructor
    · intro hfail m' S conns hsucc
      by_contra hnot
      have hSle : S.length ≤ m + 1 := by omega
      obtain ⟨S0, T, I, hd, htr⟩ := determine_success_elim hsucc
      have hS : S0 = S := by
        have h1 := htr
        simp only [List.cons.injEq, Sink.acceptStates.injEq] at h1
        exact h1.1.symm
      obtain ⟨hbound, hshift⟩ := detLoop_budget hd
      have h2 : detLoop task (m' + 2) 0 [task.initial] m [] [] = some (some (S0, T, I)) :=
        hshift m (by simp only [List.length_singleton]; rw [hS]; omega)
      have hne := @detLoop_enough _ _ task (m + 2) 0 [task.initial] m [] []
          (by simp only [List.length_singleton]; omega)
      rcases hd2 : detLoop task (m + 2) 0 [task.initial] m [] [] with _ | r2
      · exact absurd hd2 hne
      · have := detLoop_agree h2 hd2
        subst this
        rcases determine_cases task m with ⟨S1, T1, I1, hd1, he1⟩ | ⟨hd1, he1⟩
        · rw [he1] at hfail
          simp at hfail
        · rw [hd1] at hd2
          simp at hd2
    · intro hall
      rcases determine_cases task m with ⟨S, T, I, hd, he⟩ | ⟨hd, he⟩
      · exfalso
        have := hall m S (connectTrace T I (invLetters task.letters)) he
        have hbound := (detLoop_budget hd).1
        simp at hbound
        omega
      · rw [he]


/-! ### invLetters, zip and flatMap lemmas -/

theorem foldl_set_length (ls : List Letter) :
    ∀ acc : List Nat, (ls.foldl (fun acc l => acc.set l.2.1 l.1) acc).length = acc.length := by
  induction ls with
  | nil => intro acc; rfl
  | cons l rest ih =>
    intro acc
    rw [List.foldl_cons, ih]
    simp

theorem invLetters_length (ls : List Letter) : (invLetters ls).length = ls.length := by
  rw [invLetters, foldl_set_length]
  simp

theorem foldl_set_stable (ls : List Letter) :
    ∀ (acc : List Nat) (p : Nat), (p ∉ ls.map fun l => l.2.1) →
      (ls.foldl (fun acc l => acc.set l.2.1 l.1) acc).getD p 0 = acc.getD p 0 := by
  induction ls with
  | nil => intro acc p _; rfl
  | cons l rest ih =>
    intro acc p hp
    simp only [List.map_cons, List.mem_cons, not_or] at hp
    rw [List.foldl_cons, ih _ p hp.2]
    exact getD_set_ne (fun he => hp.1 he.symm)

theorem foldl_set_getD (ls : List Letter) :
    ∀ acc : List Nat, (ls.map fun l => l.2.1).Nodup → (∀ l ∈ ls, l.2.1 < acc.length) →
      ∀ l ∈ ls, (ls.foldl (fun acc l => acc.set l.2.1 l.1) acc).getD l.2.1 0 = l.1 := by
  induction ls with
  | nil => intro acc _ _ l hl; simp at hl
  | cons l0 rest ih =>
    intro acc hnd hbnd l hl
    simp only [List.map_cons, List.nodup_cons] at hnd
    rw [List.foldl_cons]
    rcases List.mem_cons.mp hl with hl1 | hl1
    · subst hl1
      rw [foldl_set_stable rest _ _ hnd.1]
      exact getD_set_self (hbnd l (List.mem_cons_self _ _))
    · refine ih _ hnd.2 ?_ l hl1
      intro l2 hl2
      have := hbnd l2 (List.mem_cons_of_mem _ hl2)
      simpa using this

theorem invLetters_getD {ls : List Letter} (hwf : LettersWF ls) :
    ∀ l ∈ ls, (invLetters ls).getD l.2.1 0 = l.1 := by
  intro l hl
  refine foldl_set_getD ls _ hwf.1 ?_ l hl
  intro l2 hl2
  simpa using hwf.2 l2 hl2

theorem zip_map_range {α β : Type} [Inhabited α] [Inhabited β] :
    ∀ (l1 : List α) (l2 : List β), l1.length = l2.length →
      l1.zip l2 = (List.range l1.length).map
        (fun c => (l1.getD c default, l2.getD c default)) := by
  intro l1
  induction l1 with
  | nil => intro l2 _; simp
  | cons a l1 ih =>
    intro l2 hlen
    cases l2 with
    | nil => simp at hlen
    | cons b l2 =>
      simp only [List.length_cons] at hlen
      rw [List.zip_cons_cons, List.length_cons, List.range_succ_eq_map, List.map_cons,
        List.map_map, ih l2 (by omega)]
      rfl

theorem flatMap_congr {α β : Type} {l : List α} {f g : α → List β}
    (h : ∀ a ∈ l, f a = g a) : l.flatMap f = l.flatMap g := by
  induction l with
  | nil => rfl
  | cons a l ih =>
    simp only [List.flatMap_cons]
    rw [h a (List.mem_cons_self _ _), ih (fun a ha => h a (List.mem_cons_of_mem _ ha))]

theorem filter_flatMap {α β : Type} (l : List α) (f : α → List β) (p : β → Bool) :
    (l.flatMap f).filter p = l.flatMap fun a => (f a).filter p := by
  induction l with
  | nil => rfl
  | cons a l ih =>
    simp only [List.flatMap_cons, List.filter_append, ih]

theorem connectTrace_eq {σ : Type} (invl : List Nat) :
    ∀ (T : List (List Nat)) (I : List Nat), T.length = I.length → I.Nodup →
      (∀ row ∈ T, row.length = invl.length) →
      ∃ dst : Nat → Nat → Nat, connectTrace (σ := σ) T I invl =
        I.flatMap fun i => (List.range invl.length).map
          fun c => Sink.connect i (dst i c) (invl.getD c 0) := by
  intro T
  induction T with
  | nil =>
    intro I hlen _ _
    refine ⟨fun _ _ => 0, ?_⟩
    have : I = [] := by
      cases I with
      | nil => rfl
      | cons i I => simp at hlen
    subst this
    rfl
  | cons row T ih =>
    intro I hlen hnd hrows
    cases I with
    | nil => simp at hlen
    | cons i I =>
      simp only [List.length_cons] at hlen
      simp only [List.nodup_cons] at hnd
      obtain ⟨dst0, hdst0⟩ := ih I (by omega) hnd.2
        (fun r hr => hrows r (List.mem_cons_of_mem _ hr))
      refine ⟨fun i2 c => if i2 = i then row.getD c 0 else dst0 i2 c, ?_⟩
      have hrl : row.length = invl.length := hrows row (List.mem_cons_self _ _)
      have hhead : (row.zip invl).map (fun q => Sink.connect (σ := σ) i q.1 q.2) =
          (List.range invl.length).map
            fun c => Sink.connect i (if i = i then row.getD c 0 else dst0 i c) (invl.getD c 0) := by
        rw [zip_map_range row invl hrl, List.map_map, hrl]
        refine List.map_congr_left ?_
        intro c _
        simp
      have hstep : connectTrace (σ := σ) (row :: T) (i :: I) invl =
          ((row.zip invl).map fun q => Sink.connect i q.1 q.2) ++ connectTrace T I invl := by
        simp [connectTrace]
      rw [hstep, hhead, hdst0, List.flatMap_cons]
      congr 1
      refine flatMap_congr ?_
      intro i2 hi2
      have hne : i2 ≠ i := fun he => hnd.1 (he ▸ hi2)
      refine List.map_congr_left ?_
      intro c _
      simp [hne]


/-! ### Full characterization of the Determine loop output -/

theorem detLoop_post {σ : Type} [DecidableEq σ] {task : DetTask σ} (hwf : LettersWF task.letters) :
    ∀ {fuel i : Nat} {states : List σ} {b : Nat} {rows : List (List Nat)} {idxs : List Nat}
      {S : List σ} {T : List (List Nat)} {I : List Nat},
    detLoop task fuel i states b rows idxs = some (some (S, T, I)) →
    states ≠ [] →
    ∃ Ttail Itail, T = rows ++ Ttail ∧ I = idxs ++ Itail ∧
      Itail = (List.range' i (S.length - i)).filter
        (fun j => task.isRequired (S.getD j task.initial)) ∧
      Ttail.length = Itail.length ∧
      (∀ row ∈ Ttail, row.length = task.letters.length) ∧
      (∀ row ∈ Ttail, ∀ t2 ∈ row, t2 < S.length) ∧
      (∀ j, states.length ≤ j → j < S.length →
        ∃ p ∈ Ttail.zip Itail, j ∈ p.1 ∧ p.2 < j) := by
  intro fuel
  induction fuel with
  | zero =>
    intro i states b rows idxs S T I h _
    simp [detLoop] at h
  | succ f ih =>
    intro i states b rows idxs S T I h hne
    simp only [detLoop] at h
    by_cases hlt : i < states.length
    · rw [dif_pos hlt] at h
      by_cases hreq : task.isRequired (states.get ⟨i, hlt⟩)
      · rw [if_pos hreq] at h
        rcases hd : detRow task.next (states.get ⟨i, hlt⟩) task.letters states b
            (List.replicate task.letters.length 0) with _ | ⟨S2, b2, row⟩
        · rw [hd] at h; simp at h
        · rw [hd] at h
          simp only at h
          obtain ⟨⟨t0, ht0⟩, hlen2, _, hrowlen⟩ := detRow_shape hd
          have hS2ne : S2 ≠ [] := by
            subst ht0
            cases states with
            | nil => exact absurd rfl hne
            | cons a l => simp
          have hlS2 : states.length ≤ S2.length := by
            rw [ht0]; simp
          obtain ⟨t1, ht1⟩ := (detLoop_extends h).1
          have hlS : S2.length ≤ S.length := by rw [ht1]; simp
          have hSsplit : S = states ++ (t0 ++ t1) := by rw [ht1, ht0, List.append_assoc]
          have hgetS : S.getD i task.initial = states.get ⟨i, hlt⟩ := by
            rw [hSsplit, getD_append_left hlt, getD_eq_get hlt]
          obtain ⟨Tt, It, hT, hI, hIt, hTIlen, hrl, hentries, hcover⟩ := ih h hS2ne
          refine ⟨row :: Tt, i :: It, ?_, ?_, ?_, ?_, ?_, ?_, ?_⟩
          · rw [hT, List.append_assoc]; rfl
          · rw [hI, List.append_assoc]; rfl
          · have hiS : i < S.length := by omega
            have hrange : List.range' i (S.length - i) =
                i :: List.range' (i + 1) (S.length - (i + 1)) := by
              have : S.length - i = (S.length - (i + 1)) + 1 := by omega
              rw [this, List.range'_succ]
            have hp : task.isRequired (S.getD i task.initial) = true := by
              rw [hgetS]; exact hreq
            rw [hrange, hIt]
            simp only [List.filter_cons, hp]
            simp
          · simp [hTIlen]
          · intro r hr
            rcases List.mem_cons.mp hr with hr1 | hr1
            · subst hr1
              rw [hrowlen]; simp
            · exact hrl r hr1
          · intro r hr
            rcases List.mem_cons.mp hr with hr1 | hr1
            · subst hr1
              intro t2 ht2
              have := detRow_entries hd ?_ t2 ht2
              · omega
              · intro x hx
                have : x = 0 := List.eq_of_mem_replicate hx
                subst this
                cases states with
                | nil => exact absurd rfl hne
                | cons a l => simp
            · intro t2 ht2
              exact hentries r hr1 t2 ht2
          · intro j hj1 hj2
            rcases Nat.lt_or_ge j S2.length with hj3 | hj3
            · refine ⟨(row, i), List.mem_cons_self _ _, ?_, by omega⟩
              refine detRow_covers hd hwf.1 ?_ j hj1 hj3
              intro l hl
              simp only [List.length_replicate]
              exact hwf.2 l hl
            · obtain ⟨p, hp, hpj, hpi⟩ := hcover j hj3 hj2
              exact ⟨p, List.mem_cons_of_mem _ hp, hpj, hpi⟩
      · rw [if_neg hreq] at h
        obtain ⟨Tt, It, hT, hI, hIt, hTIlen, hrl, hentries, hcover⟩ := ih h hne
        obtain ⟨t1, ht1⟩ := (detLoop_extends h).1
        have hlS : states.length ≤ S.length := by rw [ht1]; simp
        have hgetS : S.getD i task.initial = states.get ⟨i, hlt⟩ := by
          rw [ht1, getD_append_left hlt, getD_eq_get hlt]
        refine ⟨Tt, It, hT, hI, ?_, hTIlen, hrl, hentries, ?_⟩
        · have hiS : i < S.length := by omega
          have hrange : List.range' i (S.length - i) =
              i :: List.range' (i + 1) (S.length - (i + 1)) := by
            have : S.length - i = (S.length - (i + 1)) + 1 := by omega
            rw [this, List.range'_succ]
          have hp : task.isRequired (S.getD i task.initial) = false := by
            rw [hgetS]; simpa using hreq
          rw [hrange, hIt]
          simp only [List.filter_cons, hp]
          simp
        · intro j hj1 hj2
          exact hcover j hj1 hj2
    · rw [dif_neg hlt] at h
      simp only [Option.some.injEq, Prod.mk.injEq] at h
      obtain ⟨h1, h2, h3⟩ := h
      refine ⟨[], [], by simp [h2], by simp [h3], ?_, rfl, by simp, by simp, ?_⟩
      · rw [← h1, Nat.sub_eq_zero_of_le (Nat.le_of_not_lt hlt)]
        rfl
      · intro j hj1 hj2
        rw [← h1] at hj2
        omega


/-! ### Determine trace theorems -/

theorem determine_trace {σ : Type} [DecidableEq σ] {task : DetTask σ} {m : Nat}
    {S : List σ} {conns : List (Sink σ)} (hwf : LettersWF task.letters)
    (h : Determine task m = (true, Sink.acceptStates S :: conns)) :
    ∃ T I, conns = connectTrace T I (invLetters task.letters) ∧
      I = (List.range S.length).filter (fun j => task.isRequired (S.getD j task.initial)) ∧
      T.length = I.length ∧
      (∀ row ∈ T, row.length = task.letters.length) ∧
      (∀ row ∈ T, ∀ t2 ∈ row, t2 < S.length) ∧
      (∀ j, 1 ≤ j → j < S.length → ∃ p ∈ T.zip I, j ∈ p.1 ∧ p.2 < j) := by
  obtain ⟨S0, T, I, hd, htr⟩ := determine_success_elim h
  simp only [List.cons.injEq, Sink.acceptStates.injEq] at htr
  obtain ⟨hS, hconns⟩ := htr
  rw [← hS] at hd
  obtain ⟨Tt, It, hT, hI, hIt, hTIlen, hrl, hentries, hcover⟩ :=
    detLoop_post hwf hd (by simp)
  simp only [List.nil_append] at hT hI
  subst hT; subst hI
  refine ⟨T, I, hconns, ?_, hTIlen, hrl, hentries, ?_⟩
  · rw [hIt]
    simp [List.range_eq_range']
  · intro j hj1 hj2
    exact hcover j (by simpa using hj1) hj2

theorem determine_conns_eq {σ : Type} [DecidableEq σ] {task : DetTask σ} {m : Nat}
    {S : List σ} {conns : List (Sink σ)} (hwf : LettersWF task.letters)
    (h : Determine task m = (true, Sink.acceptStates S :: conns)) :
    ∃ dst : Nat → Nat → Nat,
      conns = ((List.range S.length).filter
          (fun j => task.isRequired (S.getD j task.initial))).flatMap
        fun i => (List.range task.letters.length).map
          fun c => Sink.connect i (dst i c) ((invLetters task.letters).getD c 0) := by
  obtain ⟨T, I, hconns, hI, hTIlen, hrl, _, _⟩ := determine_trace hwf h
  have hrows : ∀ row ∈ T, row.length = (invLetters task.letters).length := by
    intro r hr
    rw [invLetters_length]
    exact hrl r hr
  have hndI : I.Nodup := by
    rw [hI]
    exact List.Nodup.filter _ (List.nodup_range _)
  obtain ⟨dst, hdst⟩ := connectTrace_eq (invLetters task.letters) T I hTIlen hndI hrows
  refine ⟨dst, ?_⟩
  rw [hconns, hdst, hI, invLetters_length]

/-- Claim C3: in every successful drive, `AcceptStates` is called
exactly once, before any `Connect`; each required state produces exactly
`K` `Connect` calls (one per alphabet class, carrying that class's
representative symbol), emitted with the outer loop over required states
in BFS discovery order and the inner loop over class indices ascending;
no `Connect` call has a non-required from-state. -/
theorem determine_trace_shape {σ : Type} [DecidableEq σ] (task : DetTask σ) (m : Nat)
    (S : List σ) (conns : List (Sink σ)) (hwf : LettersWF task.letters)
    (h : Determine task m = (true, Sink.acceptStates S :: conns)) :
    (∀ sts, Sink.acceptStates sts ∉ conns) ∧
    (∀ l ∈ task.letters, (invLetters task.letters).getD l.2.1 0 = l.1) ∧
    ∃ dst : Nat → Nat → Nat,
      conns = ((List.range S.length).filter
          (fun j => task.isRequired (S.getD j task.initial))).flatMap
        fun i => (List.range task.letters.length).map
          fun c => Sink.connect i (dst i c) ((invLetters task.letters).getD c 0) := by
  obtain ⟨dst, hdst⟩ := determine_conns_eq hwf h
  refine ⟨?_, invLetters_getD hwf, dst, hdst⟩
  intro sts hmem
  rw [hdst, List.mem_flatMap] at hmem
  obtain ⟨i, _, hmem⟩ := hmem
  rw [List.mem_map] at hmem
  obtain ⟨c, _, hc⟩ := hmem
  exact Sink.noConfusion hc

/-- Claim C6: every state handed to `AcceptStates` is reachable from
index 0 along the emitted `Connect` edges, and every to-index of a
`Connect` call is a valid index into the `AcceptStates` vector. -/
theorem determine_reachable {σ : Type} [DecidableEq σ] (task : DetTask σ) (m : Nat)
    (S : List σ) (conns : List (Sink σ)) (hwf : LettersWF task.letters)
    (h : Determine task m = (true, Sink.acceptStates S :: conns)) :
    (∀ f2 t2 l, Sink.connect f2 t2 l ∈ conns → t2 < S.length) ∧
    (∀ j, j < S.length → ReachC conns j) := by
  obtain ⟨T, I, hconns, hI, hTIlen, hrl, hentries, hcover⟩ := determine_trace hwf h
  constructor
  · intro f2 t2 l hmem
    rw [hconns] at hmem
    unfold connectTrace at hmem
    rw [List.mem_flatMap] at hmem
    obtain ⟨p, hp, hmem⟩ := hmem
    rw [List.mem_map] at hmem
    obtain ⟨q, hq, hqe⟩ := hmem
    have ht2 : q.1 = t2 := by
      injection hqe
    have hq1 : q.1 ∈ p.1 := by
      obtain ⟨q1, q2⟩ := q
      exact (List.of_mem_zip hq).1
    have hpT : p.1 ∈ T := by
      obtain ⟨p1, p2⟩ := p
      exact (List.of_mem_zip hp).1
    rw [← ht2]
    exact hentries p.1 hpT q.1 hq1
  · intro j
    induction j using Nat.strong_induction_on with
    | _ j ihj =>
      intro hjS
      rcases Nat.eq_zero_or_pos j with hj0 | hj0
      · subst hj0
        exact ReachC.zero
      · obtain ⟨p, hp, hjp, hpi⟩ := hcover j (by omega) hjS
        have hreach : ReachC conns p.2 := ihj p.2 hpi (by omega)
        obtain ⟨k, hk, hkj⟩ := List.getElem_of_mem hjp
        have hplen : p.1.length = (invLetters task.letters).length := by
          rw [invLetters_length]
          obtain ⟨p1, p2⟩ := p
          exact hrl p1 (List.of_mem_zip hp).1
        have hkz : k < (p.1.zip (invLetters task.letters)).length := by
          rw [List.length_zip]
          omega
        have hzmem : (j, (invLetters task.letters).getD k 0) ∈
            p.1.zip (invLetters task.letters) := by
          have hzg : (p.1.zip (invLetters task.letters))[k] =
              (p.1[k], (invLetters task.letters)[k]) := List.getElem_zip (h := hkz)
          have hkinv : k < (invLetters task.letters).length := by omega
          have : (invLetters task.letters)[k] = (invLetters task.letters).getD k 0 := by
            rw [getD_eq_get hkinv]
            simp [List.get_eq_getElem]
          rw [this, hkj] at hzg
          rw [← hzg]
          exact List.getElem_mem hkz
        have hedge : Sink.connect (σ := σ) p.2 j ((invLetters task.letters).getD k 0) ∈ conns := by
          rw [hconns]
          unfold connectTrace
          rw [List.mem_flatMap]
          refine ⟨p, hp, ?_⟩
          rw [List.mem_map]
          exact ⟨(j, (invLetters task.letters).getD k 0), hzmem, rfl⟩
        exact ReachC.step hreach hedge


/-! ### Counting connect calls per source -/

theorem length_flatMap_eq {α β : Type} (l : List α) (f : α → List β) :
    (l.flatMap f).length = (l.map fun a => (f a).length).sum := by
  induction l with
  | nil => rfl
  | cons a l ih => simp [List.flatMap_cons, ih]

theorem sum_if_single {i K : Nat} : ∀ L : List Nat, L.Nodup →
    (L.map fun i2 => if i2 = i then K else 0).sum = if i ∈ L then K else 0 := by
  intro L
  induction L with
  | nil => intro _; simp
  | cons a L ih =>
    intro hnd
    simp only [List.nodup_cons] at hnd
    rw [List.map_cons, List.sum_cons, ih hnd.2]
    by_cases hai : a = i
    · subst hai
      have hninL : a ∉ L := hnd.1
      simp [hninL]
    · simp [hai, Ne.symm hai]

/-- Claim C9: the from-index handed to `Connect` is the state's BFS
discovery index (`stateIndices[from]`), never the row's position in the
transition table: every `Connect` source is a required state, and each
state below `S.length` is the source of exactly `K` `Connect` calls when
required and of none otherwise (while still keeping its index in the
`AcceptStates` vector). -/
theorem determine_from_indices {σ : Type} [DecidableEq σ] (task : DetTask σ) (m : Nat)
    (S : List σ) (conns : List (Sink σ)) (hwf : LettersWF task.letters)
    (h : Determine task m = (true, Sink.acceptStates S :: conns)) :
    (∀ f2 t2 l, Sink.connect f2 t2 l ∈ conns →
      f2 < S.length ∧ task.isRequired (S.getD f2 task.initial) = true) ∧
    (∀ i, i < S.length →
      (conns.filter fun e => decide (srcOf e = some i)).length =
        if task.isRequired (S.getD i task.initial) then task.letters.length else 0) := by
  obtain ⟨dst, hdst⟩ := determine_conns_eq hwf h
  constructor
  · intro f2 t2 l hmem
    rw [hdst, List.mem_flatMap] at hmem
    obtain ⟨i, hi, hmem⟩ := hmem
    rw [List.mem_filter] at hi
    rw [List.mem_map] at hmem
    obtain ⟨c, _, hc⟩ := hmem
    have hf2 : i = f2 := by injection hc
    subst hf2
    exact ⟨List.mem_range.mp hi.1, hi.2⟩
  · intro i hiS
    rw [hdst, filter_flatMap]
    have hblock : ∀ i2, (((List.range task.letters.length).map
        fun c => Sink.connect (σ := σ) i2 (dst i2 c) ((invLetters task.letters).getD c 0)).filter
          fun e => decide (srcOf e = some i)) =
        if i2 = i then ((List.range task.letters.length).map
          fun c => Sink.connect i2 (dst i2 c) ((invLetters task.letters).getD c 0)) else [] := by
      intro i2
      by_cases hi2 : i2 = i
      · subst hi2
        rw [if_pos rfl]
        apply List.filter_eq_self.mpr
        intro e he
        rw [List.mem_map] at he
        obtain ⟨c, _, hc⟩ := he
        rw [← hc]
        simp [srcOf]
      · rw [if_neg hi2]
        rw [List.filter_eq_nil_iff]
        intro e he
        rw [List.mem_map] at he
        obtain ⟨c, _, hc⟩ := he
        rw [← hc]
        simp [srcOf, hi2]
    rw [flatMap_congr fun a _ => hblock a, length_flatMap_eq]
    have hmapeq : (((List.range S.length).filter
        fun j => task.isRequired (S.getD j task.initial)).map
          fun i2 => (if i2 = i then ((List.range task.letters.length).map
            fun c => Sink.connect (σ := σ) i2 (dst i2 c)
              ((invLetters task.letters).getD c 0)) else []).length) =
        (((List.range S.length).filter
        fun j => task.isRequired (S.getD j task.initial)).map
          fun i2 => if i2 = i then task.letters.length else 0) := by
      refine List.map_congr_left ?_
      intro i2 _
      by_cases hi2 : i2 = i
      · simp [hi2]
      · simp [hi2]
    rw [hmapeq, sum_if_single _ (List.Nodup.filter _ (List.nodup_range _))]
    by_cases hreqi : task.isRequired (S.getD i task.initial) = true
    · rw [if_pos hreqi, if_pos ?_]
      exact List.mem_filter.mpr ⟨List.mem_range.mpr hiS, hreqi⟩
    · rw [if_neg ?_, if_neg hreqi]
      intro hmem
      exact hreqi (List.mem_filter.mp hmem).2


/-! ### Minimize: the determined guard -/

/-- Claim C5: if `task.IsDetermined()` is false, Minimize returns
`task.Failure()` immediately; no partition is built or delivered to
`AcceptPartition`. -/
theorem minimize_requires_determined (t : MinTask) (h : t.isDetermined = false) :
    Minimize t = none := by
  simp [Minimize, h]

/-! ### Partition structure lemmas (modelled Partition, spec 4.4) -/

theorem pAppend_length (eq : Nat → Nat → Bool) :
    ∀ (cs : List (List Nat)) (x : Nat),
      cs.length ≤ (pAppend eq cs x).length ∧ (pAppend eq cs x).length ≤ cs.length + 1 := by
  intro cs
  induction cs with
  | nil => intro x; simp [pAppend]
  | cons c rest ih =>
    intro x
    rw [pAppend]
    by_cases hm : c.any (fun y => eq x y)
    · rw [if_pos hm]
      simp
    · rw [if_neg hm]
      have := ih x
      simp only [List.length_cons]
      omega

theorem pAppend_flatten (eq : Nat → Nat → Bool) :
    ∀ (cs : List (List Nat)) (x : Nat),
      List.Perm (pAppend eq cs x).flatten (cs.flatten ++ [x]) := by
  intro cs
  induction cs with
  | nil => intro x; simp [pAppend]
  | cons c rest ih =>
    intro x
    rw [pAppend]
    by_cases hm : c.any (fun y => eq x y)
    · rw [if_pos hm]
      simp only [List.flatten_cons]
      rw [List.append_assoc, List.append_assoc]
      exact List.Perm.append_left c List.perm_append_comm
    · rw [if_neg hm]
      simp only [List.flatten_cons]
      rw [List.append_assoc]
      exact List.Perm.append_left c (ih x)

theorem pAppend_ne_nil (eq : Nat → Nat → Bool) :
    ∀ (cs : List (List Nat)) (x : Nat), (∀ c ∈ cs, c ≠ []) →
      ∀ c ∈ pAppend eq cs x, c ≠ [] := by
  intro cs
  induction cs with
  | nil =>
    intro x _ c hc
    simp only [pAppend, List.mem_singleton] at hc
    subst hc
    simp
  | cons c0 rest ih =>
    intro x hne c hc
    rw [pAppend] at hc
    by_cases hm : c0.any (fun y => eq x y)
    · rw [if_pos hm] at hc
      rcases List.mem_cons.mp hc with hc1 | hc1
      · rw [hc1]; simp
      · exact hne c (List.mem_cons_of_mem _ hc1)
    · rw [if_neg hm] at hc
      rcases List.mem_cons.mp hc with hc1 | hc1
      · rw [hc1]; exact hne c0 (List.mem_cons_self _ _)
      · exact ih x (fun d hd => hne d (List.mem_cons_of_mem _ hd)) c hc1

theorem pAppend_pairwise (eq : Nat → Nat → Bool)
    (hrefl : ∀ a, eq a a = true)
    (hsymm : ∀ a b, eq a b = true → eq b a = true)
    (htrans : ∀ a b c2, eq a b = true → eq b c2 = true → eq a c2 = true) :
    ∀ (cs : List (List Nat)) (x : Nat), PairwiseIn eq cs →
      PairwiseIn eq (pAppend eq cs x) := by
  intro cs
  induction cs with
  | nil =>
    intro x _ c hc a ha b hb
    simp only [pAppend, List.mem_singleton] at hc
    rw [hc] at ha hb
    simp only [List.mem_singleton] at ha hb
    rw [ha, hb]
    exact hrefl x
  | cons c0 rest ih =>
    intro x hpw c hc a ha b hb
    rw [pAppend] at hc
    by_cases hm : c0.any (fun y => eq x y)
    · rw [if_pos hm] at hc
      obtain ⟨y, hy, hxy⟩ := List.any_eq_true.mp hm
      have hpw0 := hpw c0 (List.mem_cons_self _ _)
      rcases List.mem_cons.mp hc with hc1 | hc1
      · rw [hc1] at ha hb
        rcases List.mem_append.mp ha with ha1 | ha1 <;>
          rcases List.mem_append.mp hb with hb1 | hb1
        · exact hpw0 a ha1 b hb1
        · simp only [List.mem_singleton] at hb1
          rw [hb1]
          exact htrans a y x (hpw0 a ha1 y hy) (hsymm x y hxy)
        · simp only [List.mem_singleton] at ha1
          rw [ha1]
          exact htrans x y b hxy (hpw0 y hy b hb1)
        · simp only [List.mem_singleton] at ha1 hb1
          rw [ha1, hb1]
          exact hrefl x
      · exact hpw c (List.mem_cons_of_mem _ hc1) a ha b hb
    · rw [if_neg hm] at hc
      rcases List.mem_cons.mp hc with hc1 | hc1
      · rw [hc1] at ha hb
        exact hpw c0 (List.mem_cons_self _ _) a ha b hb
      · exact ih x (fun d hd => hpw d (List.mem_cons_of_mem _ hd)) c hc1 a ha b hb

theorem foldl_pAppend_flatten (eq : Nat → Nat → Bool) :
    ∀ (L : List Nat) (acc : List (List Nat)),
      List.Perm (L.foldl (pAppend eq) acc).flatten (acc.flatten ++ L) := by
  intro L
  induction L with
  | nil => intro acc; simp
  | cons x L ih =>
    intro acc
    rw [List.foldl_cons]
    refine List.Perm.trans (ih _) ?_
    have heq : (acc.flatten ++ [x]) ++ L = acc.flatten ++ (x :: L) := by simp
    rw [← heq]
    exact (pAppend_flatten eq acc x).append_right L

theorem foldl_pAppend_ne_nil (eq : Nat → Nat → Bool) :
    ∀ (L : List Nat) (acc : List (List Nat)), (∀ c ∈ acc, c ≠ []) →
      ∀ c ∈ L.foldl (pAppend eq) acc, c ≠ [] := by
  intro L
  induction L with
  | nil => intro acc h; exact h
  | cons x L ih =>
    intro acc h
    rw [List.foldl_cons]
    exact ih _ (pAppend_ne_nil eq acc x h)

theorem foldl_pAppend_length (eq : Nat → Nat → Bool) :
    ∀ (L : List Nat) (acc : List (List Nat)),
      acc.length ≤ (L.foldl (pAppend eq) acc).length := by
  intro L
  induction L with
  | nil => intro acc; exact Nat.le_refl _
  | cons x L ih =>
    intro acc
    rw [List.foldl_cons]
    exact Nat.le_trans (pAppend_length eq acc x).1 (ih _)

theorem foldl_pAppend_pairwise (eq : Nat → Nat → Bool)
    (hrefl : ∀ a, eq a a = true)
    (hsymm : ∀ a b, eq a b = true → eq b a = true)
    (htrans : ∀ a b c2, eq a b = true → eq b c2 = true → eq a c2 = true) :
    ∀ (L : List Nat) (acc : List (List Nat)), PairwiseIn eq acc →
      PairwiseIn eq (L.foldl (pAppend eq) acc) := by
  intro L
  induction L with
  | nil => intro acc h; exact h
  | cons x L ih =>
    intro acc h
    rw [List.foldl_cons]
    exact ih _ (pAppend_pairwise eq hrefl hsymm htrans acc x h)

theorem pSplitClass_flatten (eq : Nat → Nat → Bool) (c : List Nat) :
    List.Perm (pSplitClass eq c).flatten c := by
  have := foldl_pAppend_flatten eq c []
  simpa [pSplitClass] using this

theorem pSplitClass_ne_nil (eq : Nat → Nat → Bool) (c : List Nat) :
    ∀ d ∈ pSplitClass eq c, d ≠ [] := by
  exact foldl_pAppend_ne_nil eq c [] (by simp)

theorem pSplitClass_subset (eq : Nat → Nat → Bool) (c : List Nat) :
    ∀ d ∈ pSplitClass eq c, ∀ y ∈ d, y ∈ c := by
  intro d hd y hy
  have hmem : y ∈ (pSplitClass eq c).flatten := by
    rw [List.mem_flatten]
    exact ⟨d, hd, hy⟩
  exact (pSplitClass_flatten eq c).mem_iff.mp hmem

theorem pSplitClass_pairwise (eq : Nat → Nat → Bool)
    (hrefl : ∀ a, eq a a = true)
    (hsymm : ∀ a b, eq a b = true → eq b a = true)
    (htrans : ∀ a b c2, eq a b = true → eq b c2 = true → eq a c2 = true)
    (c : List Nat) : PairwiseIn eq (pSplitClass eq c) := by
  refine foldl_pAppend_pairwise eq hrefl hsymm htrans c [] ?_
  intro d hd
  simp at hd

theorem pSplitClass_length_pos (eq : Nat → Nat → Bool) (c : List Nat) (hc : c ≠ []) :
    1 ≤ (pSplitClass eq c).length := by
  by_contra hlen
  have h0 : pSplitClass eq c = [] := by
    cases hsc : pSplitClass eq c with
    | nil => rfl
    | cons d ds => rw [hsc] at hlen; simp at hlen
  have hperm := pSplitClass_flatten eq c
  rw [h0] at hperm
  have hlen2 := hperm.length_eq
  simp only [List.flatten_nil, List.length_nil] at hlen2
  exact hc (List.length_eq_zero.mp hlen2.symm)


/-! ### pSplit lemmas -/

theorem pSplit_flatten (eq : Nat → Nat → Bool) (cs : List (List Nat)) :
    List.Perm (pSplit eq cs).flatten cs.flatten := by
  induction cs with
  | nil => simp [pSplit]
  | cons c rest ih =>
    simp only [pSplit, List.flatMap_cons, List.flatten_append, List.flatten_cons]
    exact List.Perm.append (pSplitClass_flatten eq c) ih

theorem pSplit_ne_nil (eq : Nat → Nat → Bool) (cs : List (List Nat))
    (hne : ∀ c ∈ cs, c ≠ []) : ∀ d ∈ pSplit eq cs, d ≠ [] := by
  intro d hd
  rw [pSplit, List.mem_flatMap] at hd
  obtain ⟨c, hc, hdc⟩ := hd
  exact pSplitClass_ne_nil eq c d hdc

theorem pSplit_subset (eq : Nat → Nat → Bool) (cs : List (List Nat)) :
    ∀ d ∈ pSplit eq cs, ∃ c ∈ cs, ∀ y ∈ d, y ∈ c := by
  intro d hd
  rw [pSplit, List.mem_flatMap] at hd
  obtain ⟨c, hc, hdc⟩ := hd
  exact ⟨c, hc, pSplitClass_subset eq c d hdc⟩

theorem pSplit_pairwise (eq : Nat → Nat → Bool)
    (hrefl : ∀ a, eq a a = true)
    (hsymm : ∀ a b, eq a b = true → eq b a = true)
    (htrans : ∀ a b c2, eq a b = true → eq b c2 = true → eq a c2 = true)
    (cs : List (List Nat)) : PairwiseIn eq (pSplit eq cs) := by
  intro d hd
  rw [pSplit, List.mem_flatMap] at hd
  obtain ⟨c, hc, hdc⟩ := hd
  exact pSplitClass_pairwise eq hrefl hsymm htrans c d hdc

theorem pSplit_length_ge (eq : Nat → Nat → Bool) (cs : List (List Nat))
    (hne : ∀ c ∈ cs, c ≠ []) : cs.length ≤ (pSplit eq cs).length := by
  induction cs with
  | nil => simp [pSplit]
  | cons c rest ih =>
    simp only [pSplit, List.flatMap_cons, List.length_append, List.length_cons]
    have h1 := pSplitClass_length_pos eq c (hne c (List.mem_cons_self _ _))
    have h2 := ih (fun d hd => hne d (List.mem_cons_of_mem _ hd))
    simp only [pSplit] at h2
    omega

theorem foldl_pAppend_single (eq : Nat → Nat → Bool) :
    ∀ (L : List Nat) (g : List Nat), (L.foldl (pAppend eq) [g]).length = 1 →
      L.foldl (pAppend eq) [g] = [g ++ L] := by
  intro L
  induction L with
  | nil => intro g _; simp
  | cons x L ih =>
    intro g h
    have hstep : pAppend eq [g] x =
        if g.any (fun y => eq x y) then [g ++ [x]] else [g, [x]] := by
      rw [pAppend]
      by_cases hm : g.any (fun y => eq x y)
      · rw [if_pos hm, if_pos hm]
      · rw [if_neg hm, if_neg hm, pAppend]
    rw [List.foldl_cons, hstep] at h ⊢
    by_cases hm : g.any (fun y => eq x y)
    · rw [if_pos hm] at h ⊢
      rw [ih (g ++ [x]) h]
      simp
    · rw [if_neg hm] at h
      exfalso
      have hlen := foldl_pAppend_length eq L [g, [x]]
      simp only [List.length_cons, List.length_singleton] at hlen
      omega

theorem pSplitClass_singleton (eq : Nat → Nat → Bool) (c : List Nat) (hc : c ≠ [])
    (h1 : (pSplitClass eq c).length = 1) : pSplitClass eq c = [c] := by
  cases c with
  | nil => exact absurd rfl hc
  | cons x rest =>
    have hstart : pSplitClass eq (x :: rest) = rest.foldl (pAppend eq) [[x]] := by
      rw [pSplitClass, List.foldl_cons]
      rfl
    rw [hstart] at h1 ⊢
    rw [foldl_pAppend_single eq rest [x] h1]
    simp

theorem pSplit_eq_self (eq : Nat → Nat → Bool) :
    ∀ cs : List (List Nat), (∀ c ∈ cs, c ≠ []) →
      (pSplit eq cs).length = cs.length → pSplit eq cs = cs := by
  intro cs
  induction cs with
  | nil => intro _ _; simp [pSplit]
  | cons c rest ih =>
    intro hne hlen
    have hsplit : pSplit eq (c :: rest) = pSplitClass eq c ++ pSplit eq rest := by
      simp [pSplit]
    rw [hsplit] at hlen ⊢
    rw [List.length_append, List.length_cons] at hlen
    have h1 := pSplitClass_length_pos eq c (hne c (List.mem_cons_self _ _))
    have h2 := pSplit_length_ge eq rest (fun d hd => hne d (List.mem_cons_of_mem _ hd))
    have hc1 : (pSplitClass eq c).length = 1 := by omega
    have hc2 : (pSplit eq rest).length = rest.length := by omega
    rw [pSplitClass_singleton eq c (hne c (List.mem_cons_self _ _)) hc1,
      ih (fun d hd => hne d (List.mem_cons_of_mem _ hd)) hc2]
    rfl

theorem classes_le_card : ∀ cs : List (List Nat), (∀ c ∈ cs, c ≠ []) →
    cs.length ≤ cs.flatten.length := by
  intro cs
  induction cs with
  | nil => intro _; simp
  | cons c rest ih =>
    intro hne
    simp only [List.flatten_cons, List.length_append, List.length_cons]
    have h1 : 0 < c.length :=
      List.length_pos.mpr (hne c (List.mem_cons_self _ _))
    have h2 := ih (fun d hd => hne d (List.mem_cons_of_mem _ hd))
    omega

/-! ### minLoop lemmas -/

theorem minLoop_some (tbl : Nat → Nat) (dl : List Nat) (n : Nat) :
    ∀ (fuel : Nat) (clMap : List Nat) (cs : List (List Nat)),
    (∀ c ∈ cs, c ≠ []) → List.Perm cs.flatten (List.range n) →
    n + 2 ≤ fuel + cs.length → (minLoop tbl dl n fuel clMap cs).isSome := by
  intro fuel
  induction fuel with
  | zero =>
    intro clMap cs hne hperm hfuel
    exfalso
    have h1 := classes_le_card cs hne
    have h2 : cs.flatten.length = n := by
      rw [hperm.length_eq]
      simp
    omega
  | succ f ih =>
    intro clMap cs hne hperm hfuel
    simp only [minLoop]
    by_cases heq : reprMap cs n = clMap
    · rw [if_pos heq]
      simp
    · rw [if_neg heq]
      have hne2 := pSplit_ne_nil (eqSplitM tbl dl (reprMap cs n)) cs hne
      have hperm2 : List.Perm (pSplit (eqSplitM tbl dl (reprMap cs n)) cs).flatten
          (List.range n) :=
        (pSplit_flatten _ cs).trans hperm
      have hge := pSplit_length_ge (eqSplitM tbl dl (reprMap cs n)) cs hne
      rcases Nat.lt_or_ge cs.length (pSplit (eqSplitM tbl dl (reprMap cs n)) cs).length
        with hgt | hle
      · exact ih _ _ hne2 hperm2 (by omega)
      · have heqlen : (pSplit (eqSplitM tbl dl (reprMap cs n)) cs).length = cs.length := by
          omega
        rw [pSplit_eq_self _ cs hne heqlen]
        have hcnt : cs.length ≤ n := by
          have h1 := classes_le_card cs hne
          have h2 : cs.flatten.length = n := by
            rw [hperm.length_eq]
            simp
          omega
        obtain ⟨f2, rfl⟩ : ∃ f2, f = f2 + 1 := ⟨f - 1, by omega⟩
        simp [minLoop]

theorem minLoop_refines (tbl : Nat → Nat) (dl : List Nat) (n : Nat) :
    ∀ (fuel : Nat) (clMap : List Nat) (cs F : List (List Nat)),
    minLoop tbl dl n fuel clMap cs = some F →
    ∀ d ∈ F, ∃ c ∈ cs, ∀ y ∈ d, y ∈ c := by
  intro fuel
  induction fuel with
  | zero =>
    intro clMap cs F h
    simp [minLoop] at h
  | succ f ih =>
    intro clMap cs F h
    simp only [minLoop] at h
    by_cases heq : reprMap cs n = clMap
    · rw [if_pos heq] at h
      obtain rfl : cs = F := Option.some.inj h
      intro d hd
      exact ⟨d, hd, fun y hy => hy⟩
    · rw [if_neg heq] at h
      intro d hd
      obtain ⟨c2, hc2, hsub2⟩ := ih _ _ _ h d hd
      obtain ⟨c, hc, hsub⟩ := pSplit_subset _ cs c2 hc2
      exact ⟨c, hc, fun y hy => hsub y (hsub2 y hy)⟩

theorem minLoop_inv (tbl : Nat → Nat) (dl : List Nat) (n : Nat) :
    ∀ (fuel : Nat) (clMap : List Nat) (cs F : List (List Nat)),
    minLoop tbl dl n fuel clMap cs = some F →
    (∀ c ∈ cs, c ≠ []) → List.Perm cs.flatten (List.range n) →
    (∀ c ∈ F, c ≠ []) ∧ List.Perm F.flatten (List.range n) := by
  intro fuel
  induction fuel with
  | zero =>
    intro clMap cs F h
    simp [minLoop] at h
  | succ f ih =>
    intro clMap cs F h hne hperm
    simp only [minLoop] at h
    by_cases heq : reprMap cs n = clMap
    · rw [if_pos heq] at h
      obtain rfl : cs = F := Option.some.inj h
      exact ⟨hne, hperm⟩
    · rw [if_neg heq] at h
      exact ih _ _ _ h (pSplit_ne_nil _ cs hne) ((pSplit_flatten _ cs).trans hperm)


/-! ### Representative lemmas -/

theorem reprMap_getD (cs : List (List Nat)) (n : Nat) {s : Nat} (hs : s < n) :
    (reprMap cs n).getD s 0 = pRepr cs s := by
  rw [reprMap]
  have hlen : ((List.range n).map (pRepr cs)).length = n := by simp
  rw [getD_eq_get (by omega)]
  simp [List.get_eq_getElem]

theorem flatten_nodup_unique : ∀ {cs : List (List Nat)}, cs.flatten.Nodup →
    ∀ c1 ∈ cs, ∀ c2 ∈ cs, ∀ a : Nat, a ∈ c1 → a ∈ c2 → c1 = c2 := by
  intro cs
  induction cs with
  | nil => intro _ c1 hc1; simp at hc1
  | cons c rest ih =>
    intro hnd c1 hc1 c2 hc2 a ha1 ha2
    simp only [List.flatten_cons, List.nodup_append] at hnd
    obtain ⟨hnd1, hnd2, hdisj⟩ := hnd
    rcases List.mem_cons.mp hc1 with h1 | h1 <;> rcases List.mem_cons.mp hc2 with h2 | h2
    · rw [h1, h2]
    · exfalso
      rw [h1] at ha1
      exact hdisj ha1 (List.mem_flatten.mpr ⟨c2, h2, ha2⟩)
    · exfalso
      rw [h2] at ha2
      exact hdisj ha2 (List.mem_flatten.mpr ⟨c1, h1, ha1⟩)
    · exact ih hnd2 c1 h1 c2 h2 a ha1 ha2

theorem pRepr_mem {cs : List (List Nat)} {x : Nat} {c : List Nat}
    (hnd : cs.flatten.Nodup) (hne : ∀ c2 ∈ cs, c2 ≠ []) (hc : c ∈ cs) (hx : x ∈ c) :
    pRepr cs x ∈ c := by
  rw [pRepr]
  rcases hf : cs.find? (fun c2 => c2.any (fun y => y == x)) with _ | c0
  · exfalso
    have hnone := List.find?_eq_none.mp hf c hc
    apply hnone
    rw [List.any_eq_true]
    exact ⟨x, hx, by simp⟩
  · rw [hf]
    show c0.headD x ∈ c
    have hpred := List.find?_some hf
    have hc0 : c0 ∈ cs := List.mem_of_find?_eq_some hf
    obtain ⟨y, hy, hyx⟩ := List.any_eq_true.mp hpred
    have hxc0 : x ∈ c0 := by
      have : y = x := by simpa using hyx
      rw [← this]
      exact hy
    have hcc : c0 = c := flatten_nodup_unique hnd c0 hc0 c hc x hxc0 hx
    rw [hcc]
    cases hcval : c with
    | nil => exact absurd hcval (hne c hc)
    | cons a l => simp

theorem pRepr_eq_sameCl {n : Nat} {cs : List (List Nat)}
    (hnd : cs.flatten.Nodup) (hne : ∀ c ∈ cs, c ≠ [])
    (hperm : List.Perm cs.flatten (List.range n)) {x y : Nat} (hx : x < n) (hy : y < n)
    (hrepr : pRepr cs x = pRepr cs y) : sameCl cs x y := by
  have hxmem : x ∈ cs.flatten := hperm.mem_iff.mpr (List.mem_range.mpr hx)
  have hymem : y ∈ cs.flatten := hperm.mem_iff.mpr (List.mem_range.mpr hy)
  obtain ⟨cx, hcx, hxcx⟩ := List.mem_flatten.mp hxmem
  obtain ⟨cy, hcy, hycy⟩ := List.mem_flatten.mp hymem
  have hrx : pRepr cs x ∈ cx := pRepr_mem hnd hne hcx hxcx
  have hry : pRepr cs y ∈ cy := pRepr_mem hnd hne hcy hycy
  rw [hrepr] at hrx
  have hcc : cx = cy := flatten_nodup_unique hnd cx hcx cy hcy _ hrx hry
  refine ⟨cx, hcx, hxcx, ?_⟩
  rw [hcc]
  exact hycy

/-! ### eqSplitM is an equivalence -/

theorem eqSplitM_refl (tbl : Nat → Nat) (dl : List Nat) (prev : List Nat) (a : Nat) :
    eqSplitM tbl dl prev a a = true := by
  simp [eqSplitM]

theorem eqSplitM_symm (tbl : Nat → Nat) (dl : List Nat) (prev : List Nat) (a b : Nat)
    (h : eqSplitM tbl dl prev a b = true) : eqSplitM tbl dl prev b a = true := by
  simp only [eqSplitM, Bool.and_eq_true, decide_eq_true_eq, List.all_eq_true] at h ⊢
  obtain ⟨h1, h2⟩ := h
  exact ⟨h1.symm, fun l hl => (h2 l hl).symm⟩

theorem eqSplitM_trans (tbl : Nat → Nat) (dl : List Nat) (prev : List Nat) (a b c2 : Nat)
    (h1 : eqSplitM tbl dl prev a b = true) (h2 : eqSplitM tbl dl prev b c2 = true) :
    eqSplitM tbl dl prev a c2 = true := by
  simp only [eqSplitM, Bool.and_eq_true, decide_eq_true_eq, List.all_eq_true] at h1 h2 ⊢
  obtain ⟨h1a, h1b⟩ := h1
  obtain ⟨h2a, h2b⟩ := h2
  exact ⟨h1a.trans h2a, fun l hl => (h1b l hl).trans (h2b l hl)⟩

theorem eqSplitM_elim {tbl : Nat → Nat} {dl : List Nat} {prev : List Nat} {a b : Nat}
    (h : eqSplitM tbl dl prev a b = true) :
    ∀ l ∈ dl, prev.getD (tbl (a * MaxChar + l)) 0 = prev.getD (tbl (b * MaxChar + l)) 0 := by
  simp only [eqSplitM, Bool.and_eq_true, decide_eq_true_eq, List.all_eq_true] at h
  exact h.2

/-! ### The fixpoint property of the refinement loop -/

theorem minLoop_fix (tbl : Nat → Nat) (dl : List Nat) (n : Nat)
    (htbl : ∀ i2, tbl i2 < n) :
    ∀ (fuel : Nat) (clMap : List Nat) (cs F : List (List Nat)),
    minLoop tbl dl n fuel clMap cs = some F →
    (∀ c ∈ cs, c ≠ []) → List.Perm cs.flatten (List.range n) →
    (reprMap cs n = clMap → FixP tbl dl cs) →
    FixP tbl dl F := by
  intro fuel
  induction fuel with
  | zero =>
    intro clMap cs F h
    simp [minLoop] at h
  | succ f ih =>
    intro clMap cs F h hne hperm hstart
    simp only [minLoop] at h
    by_cases heq : reprMap cs n = clMap
    · rw [if_pos heq] at h
      obtain rfl : cs = F := Option.some.inj h
      exact hstart heq
    · rw [if_neg heq] at h
      set cs2 := pSplit (eqSplitM tbl dl (reprMap cs n)) cs with hcs2
      have hne2 : ∀ c ∈ cs2, c ≠ [] := pSplit_ne_nil _ cs hne
      have hperm2 : List.Perm cs2.flatten (List.range n) :=
        (pSplit_flatten _ cs).trans hperm
      refine ih _ _ _ h hne2 hperm2 ?_
      intro hr a b hab l hl
      have hpw := pSplit_pairwise (eqSplitM tbl dl (reprMap cs n))
        (eqSplitM_refl tbl dl _) (eqSplitM_symm tbl dl _) (eqSplitM_trans tbl dl _) cs
      obtain ⟨c, hc, hac, hbc⟩ := hab
      have heqab := hpw c hc a hac b hbc
      have hcomp := eqSplitM_elim heqab l hl
      have hsa : tbl (a * MaxChar + l) < n := htbl _
      have hsb : tbl (b * MaxChar + l) < n := htbl _
      rw [← reprMap_getD cs2 n hsa, ← reprMap_getD cs2 n hsb, hr]
      exact hcomp


/-! ### buildDetTran lemmas -/

theorem foldl_preserve {α : Type} {P : (Nat → Nat) → Prop} :
    ∀ (L : List α) (step : (Nat → Nat) → α → (Nat → Nat)) (g : Nat → Nat),
    P g → (∀ g2 a, a ∈ L → P g2 → P (step g2 a)) → P (L.foldl step g) := by
  intro L
  induction L with
  | nil => intro step g hg _; exact hg
  | cons a L ih =>
    intro step g hg hstep
    rw [List.foldl_cons]
    exact ih step _ (hstep g a (List.mem_cons_self _ _) hg)
      (fun g2 a2 ha2 => hstep g2 a2 (List.mem_cons_of_mem _ ha2))

theorem buildDetTran_lt (t : MinTask) (hn : 0 < t.size)
    (hclosed : ∀ f, f < t.size → ∀ l ∈ t.letters, t.next f l.1 < t.size) :
    ∀ i2, buildDetTran t i2 < t.size := by
  rw [buildDetTran]
  refine foldl_preserve (P := fun g => ∀ i2, g i2 < t.size) t.letters _ _ (fun i2 => hn) ?_
  intro g l hl hg
  refine foldl_preserve (P := fun g => ∀ i2, g i2 < t.size) (List.range t.size) _ _ hg ?_
  intro g2 f hf hg2
  refine foldl_preserve (P := fun g => ∀ i2, g i2 < t.size) l.2.2 _ _ hg2 ?_
  intro g3 ch _ hg3 i2
  by_cases hi : i2 = f * MaxChar + ch
  · rw [if_pos hi]
    exact hclosed f (List.mem_range.mp hf) l hl
  · rw [if_neg hi]
    exact hg3 i2

theorem updFold_eq (v : Nat) (base : Nat) :
    ∀ (mem : List Nat) (g : Nat → Nat) (idx : Nat),
      (mem.foldl (fun g2 ch => fun i2 => if i2 = base + ch then v else g2 i2) g) idx =
        if ∃ ch ∈ mem, idx = base + ch then v else g idx := by
  intro mem
  induction mem with
  | nil => intro g idx; simp
  | cons ch rest ih =>
    intro g idx
    rw [List.foldl_cons, ih]
    by_cases hc : idx = base + ch
    · have hex : ∃ ch2 ∈ ch :: rest, idx = base + ch2 := ⟨ch, List.mem_cons_self _ _, hc⟩
      rw [if_pos hex]
      by_cases hr : ∃ ch2 ∈ rest, idx = base + ch2
      · rw [if_pos hr]
      · rw [if_neg hr, if_pos hc]
    · by_cases hr : ∃ ch2 ∈ rest, idx = base + ch2
      · rw [if_pos hr]
        obtain ⟨ch2, h1, h2⟩ := hr
        rw [if_pos ⟨ch2, List.mem_cons_of_mem _ h1, h2⟩]
      · have hex : ¬ ∃ ch2 ∈ ch :: rest, idx = base + ch2 := by
          rintro ⟨ch2, h1, h2⟩
          rcases List.mem_cons.mp h1 with h3 | h3
          · rw [h3] at h2; exact hc h2
          · exact hr ⟨ch2, h3, h2⟩
        rw [if_neg hex, if_neg hr, if_neg hc]

theorem rangeFold_eq (t : MinTask) (rep : Nat) (mem : List Nat) :
    ∀ (m : Nat) (g : Nat → Nat) (f ch : Nat), ch ∈ mem → ch < MaxChar →
      (∀ ch2 ∈ mem, ch2 < MaxChar) →
      ((List.range m).foldl
        (fun g2 f2 => mem.foldl
          (fun g3 ch2 => fun i2 => if i2 = f2 * MaxChar + ch2 then t.next f2 rep else g3 i2) g2)
        g) (f * MaxChar + ch) =
      if f < m then t.next f rep else g (f * MaxChar + ch) := by
  intro m
  induction m with
  | zero => intro g f ch _ _ _; simp
  | succ m ih =>
    intro g f ch hch hlt hmem
    rw [List.range_succ, List.foldl_append, List.foldl_cons, List.foldl_nil, updFold_eq]
    by_cases hex : ∃ ch2 ∈ mem, f * MaxChar + ch = m * MaxChar + ch2
    · rw [if_pos hex]
      obtain ⟨ch2, hch2, he⟩ := hex
      have hb2 := hmem ch2 hch2
      have hMC : MaxChar = 260 := rfl
      rw [hMC] at he hlt hb2
      have hfm : f = m := by omega
      rw [if_pos (by omega), hfm]
    · rw [if_neg hex, ih g f ch hch hlt hmem]
      have hfne : f ≠ m := by
        intro hfm
        exact hex ⟨ch, hch, by rw [hfm]⟩
      by_cases hfm : f < m
      · rw [if_pos hfm, if_pos (by omega)]
      · rw [if_neg hfm, if_neg (by omega)]

theorem multiStep_stable (t : MinTask) (rep : Nat) (mem : List Nat) :
    ∀ (L : List Nat) (g : Nat → Nat) (f ch : Nat), ch < MaxChar →
      ch ∉ mem → (∀ ch2 ∈ mem, ch2 < MaxChar) →
      (L.foldl (fun g2 f2 => mem.foldl (fun g3 ch2 => fun i2 =>
          if i2 = f2 * MaxChar + ch2 then t.next f2 rep else g3 i2) g2) g)
        (f * MaxChar + ch) = g (f * MaxChar + ch) := by
  intro L
  induction L with
  | nil => intro g f ch _ _ _; rfl
  | cons f2 L ih =>
    intro g f ch hch hnin hbnd
    rw [List.foldl_cons, ih _ f ch hch hnin hbnd, updFold_eq]
    rw [if_neg ?_]
    rintro ⟨ch2, hch2, he⟩
    have hb2 := hbnd ch2 hch2
    have hMC : MaxChar = 260 := rfl
    rw [hMC] at he hch hb2
    have : ch = ch2 := by omega
    rw [this] at hnin
    exact hnin hch2

theorem lettersFold_stable (t : MinTask) :
    ∀ (L : List Letter) (g : Nat → Nat) (f ch : Nat), ch < MaxChar →
      (∀ l ∈ L, ∀ ch2 ∈ l.2.2, ch2 < MaxChar) → (∀ l ∈ L, ch ∉ l.2.2) →
      (L.foldl (fun tbl l => (List.range t.size).foldl
        (fun tbl2 f2 => l.2.2.foldl (fun tbl3 ch2 => fun i2 =>
          if i2 = f2 * MaxChar + ch2 then t.next f2 l.1 else tbl3 i2) tbl2) tbl) g)
        (f * MaxChar + ch) = g (f * MaxChar + ch) := by
  intro L
  induction L with
  | nil => intro g f ch _ _ _; rfl
  | cons l1 rest ih =>
    intro g f ch hch hbnd hnin
    rw [List.foldl_cons,
      ih _ f ch hch (fun l hl => hbnd l (List.mem_cons_of_mem _ hl))
        (fun l hl => hnin l (List.mem_cons_of_mem _ hl)),
      multiStep_stable t l1.1 l1.2.2 (List.range t.size) g f ch hch
        (hnin l1 (List.mem_cons_self _ _)) (hbnd l1 (List.mem_cons_self _ _))]

theorem lettersFold_eq (t : MinTask) :
    ∀ (L : List Letter) (g : Nat → Nat) (l0 : Letter) (ch f : Nat),
      l0 ∈ L → ch ∈ l0.2.2 → (L.flatMap fun l => l.2.2).Nodup →
      (∀ l ∈ L, ∀ ch2 ∈ l.2.2, ch2 < MaxChar) → f < t.size →
      (L.foldl (fun tbl l => (List.range t.size).foldl
        (fun tbl2 f2 => l.2.2.foldl (fun tbl3 ch2 => fun i2 =>
          if i2 = f2 * MaxChar + ch2 then t.next f2 l.1 else tbl3 i2) tbl2) tbl) g)
        (f * MaxChar + ch) = t.next f l0.1 := by
  intro L
  induction L with
  | nil => intro g l0 ch f hl0; simp at hl0
  | cons l1 rest ih =>
    intro g l0 ch f hl0 hch hnd hbnd hf
    rw [List.foldl_cons]
    have hchlt : ch < MaxChar := hbnd l0 hl0 ch hch
    simp only [List.flatMap_cons, List.nodup_append] at hnd
    rcases List.mem_cons.mp hl0 with h1 | h1
    · have hnotin : ∀ l ∈ rest, ch ∉ l.2.2 := by
        intro l hl hchl
        refine hnd.2.2 ?_ (List.mem_flatMap.mpr ⟨l, hl, hchl⟩)
        rw [← h1]
        exact hch
      rw [lettersFold_stable t rest _ f ch hchlt
        (fun l hl => hbnd l (List.mem_cons_of_mem _ hl)) hnotin]
      have hch1 : ch ∈ l1.2.2 := by rw [← h1]; exact hch
      rw [rangeFold_eq t l1.1 l1.2.2 t.size g f ch hch1 hchlt
        (hbnd l1 (List.mem_cons_self _ _)), if_pos hf, h1]
    · exact ih _ l0 ch f h1 hch hnd.2.1
        (fun l hl => hbnd l (List.mem_cons_of_mem _ hl)) hf

theorem buildDetTran_eq (t : MinTask) {l0 : Letter} {ch f : Nat}
    (hl0 : l0 ∈ t.letters) (hch : ch ∈ l0.2.2)
    (hnd : (t.letters.flatMap fun l => l.2.2).Nodup)
    (hbnd : ∀ l ∈ t.letters, ∀ ch2 ∈ l.2.2, ch2 < MaxChar)
    (hf : f < t.size) :
    buildDetTran t (f * MaxChar + ch) = t.next f l0.1 := by
  rw [buildDetTran]
  exact lettersFold_eq t t.letters (fun _ => 0) l0 ch f hl0 hch hnd hbnd hf


/-! ### initClasses lemmas -/

theorem initClasses_flatten (t : MinTask) :
    List.Perm (initClasses t).flatten (List.range t.size) := by
  have h := foldl_pAppend_flatten (eqInitialM t) (List.range t.size) []
  simpa [initClasses] using h

theorem initClasses_ne_nil (t : MinTask) : ∀ c ∈ initClasses t, c ≠ [] := by
  refine foldl_pAppend_ne_nil _ _ [] ?_
  intro c hc
  simp at hc

theorem initClasses_pairwise (t : MinTask)
    (hrefl : ∀ a, t.sameClasses a a = true)
    (hsymm : ∀ a b, t.sameClasses a b = true → t.sameClasses b a = true)
    (htrans : ∀ a b c2, t.sameClasses a b = true → t.sameClasses b c2 = true →
      t.sameClasses a c2 = true) :
    PairwiseIn (eqInitialM t) (initClasses t) := by
  refine foldl_pAppend_pairwise _ hrefl hsymm htrans _ [] ?_
  intro d hd
  simp at hd

theorem getD_replicate_zero : ∀ n s : Nat, (List.replicate n 0).getD s 0 = 0 := by
  intro n
  induction n with
  | zero => intro s; rfl
  | succ n ih =>
    intro s
    cases s with
    | zero => rfl
    | succ s => exact ih s

/-! ### The Minimize claims -/

/-- Claim C8: the refinement loop of Minimize terminates: splitting only
refines the partition (every new class sits inside an old one, the class
count never drops), a round that does not strictly grow the class count
leaves the partition unchanged, and since the class count is bounded by
the number of states the loop reaches its fixpoint within the `|S| + 1`
rounds Minimize allows, so Minimize on a determined task always delivers
a partition. -/
theorem minimize_terminates (t : MinTask) (h : t.isDetermined = true) :
    (Minimize t).isSome ∧
    ∀ (eq : Nat → Nat → Bool) (cs : List (List Nat)), (∀ c ∈ cs, c ≠ []) →
      ((∀ d ∈ pSplit eq cs, ∃ c ∈ cs, ∀ y ∈ d, y ∈ c) ∧
       cs.length ≤ (pSplit eq cs).length ∧
       ((pSplit eq cs).length = cs.length → pSplit eq cs = cs)) := by
  constructor
  · rw [Minimize, if_pos h]
    rcases Nat.eq_zero_or_pos t.size with h0 | hpos
    · rw [h0]
      simp [minLoop, reprMap]
    · have hcnt : 1 ≤ (initClasses t).length := by
        have hp := initClasses_flatten t
        by_contra hc
        have hnil : initClasses t = [] := by
          cases hval : initClasses t with
          | nil => rfl
          | cons a l => rw [hval] at hc; simp at hc
        rw [hnil] at hp
        have hl := hp.length_eq
        simp at hl
        omega
      exact minLoop_some _ _ _ _ _ _ (initClasses_ne_nil t) (initClasses_flatten t)
        (by omega)
  · intro eq cs hne
    exact ⟨pSplit_subset eq cs, pSplit_length_ge eq cs hne, pSplit_eq_self eq cs hne⟩

/-- Claim C4: Minimize soundness.  Whenever two states land in one class
of the final partition, `task.SameClasses` holds for them and, for every
alphabet class representative, their successors also share a final
class. -/
theorem minimize_sound (t : MinTask) (F : List (List Nat))
    (hmin : Minimize t = some F)
    (hrefl : ∀ a, t.sameClasses a a = true)
    (hsymm : ∀ a b, t.sameClasses a b = true → t.sameClasses b a = true)
    (htrans : ∀ a b c2, t.sameClasses a b = true → t.sameClasses b c2 = true →
      t.sameClasses a c2 = true)
    (hrepmem : ∀ l ∈ t.letters, l.1 ∈ l.2.2)
    (hnd : (t.letters.flatMap fun l => l.2.2).Nodup)
    (hbnd : ∀ l ∈ t.letters, ∀ ch ∈ l.2.2, ch < MaxChar)
    (hclosed : ∀ f, f < t.size → ∀ l ∈ t.letters, t.next f l.1 < t.size) :
    ∀ a b, sameCl F a b →
      t.sameClasses a b = true ∧
      ∀ l ∈ t.letters, sameCl F (t.next a l.1) (t.next b l.1) := by
  have hdet : t.isDetermined = true := by
    by_contra hd
    rw [Minimize, if_neg hd] at hmin
    simp at hmin
  rw [Minimize, if_pos hdet] at hmin
  intro a b hab
  obtain ⟨hneF, hpermF⟩ := minLoop_inv _ _ _ _ _ _ _ hmin (initClasses_ne_nil t)
    (initClasses_flatten t)
  have hpart1 : t.sameClasses a b = true := by
    obtain ⟨d, hd, had, hbd⟩ := hab
    obtain ⟨c, hc, hsub⟩ := minLoop_refines _ _ _ _ _ _ _ hmin d hd
    exact initClasses_pairwise t hrefl hsymm htrans c hc a (hsub a had) b (hsub b hbd)
  refine ⟨hpart1, ?_⟩
  have hndF : F.flatten.Nodup := (hpermF.nodup_iff).mpr (List.nodup_range _)
  have haS : a < t.size := by
    obtain ⟨d, hd, had, _⟩ := hab
    have hmem : a ∈ F.flatten := List.mem_flatten.mpr ⟨d, hd, had⟩
    exact List.mem_range.mp (hpermF.mem_iff.mp hmem)
  have hbS : b < t.size := by
    obtain ⟨d, hd, _, hbd⟩ := hab
    have hmem : b ∈ F.flatten := List.mem_flatten.mpr ⟨d, hd, hbd⟩
    exact List.mem_range.mp (hpermF.mem_iff.mp hmem)
  have hpos : 0 < t.size := by omega
  have htbl : ∀ i2, buildDetTran t i2 < t.size := buildDetTran_lt t hpos hclosed
  have hfix : FixP (buildDetTran t) (t.letters.map fun l => l.1) F := by
    refine minLoop_fix _ _ _ htbl _ _ _ _ hmin (initClasses_ne_nil t)
      (initClasses_flatten t) ?_
    intro hstart a2 b2 _ l hl
    have hz : ∀ s, s < t.size → pRepr (initClasses t) s = 0 := by
      intro s hs
      have h1 : (reprMap (initClasses t) t.size).getD s 0 = pRepr (initClasses t) s :=
        reprMap_getD _ _ hs
      rw [hstart] at h1
      rw [← h1]
      exact getD_replicate_zero _ _
    rw [hz _ (htbl _), hz _ (htbl _)]
  intro l hl
  have hlmem : l.1 ∈ t.letters.map (fun l2 => l2.1) := List.mem_map.mpr ⟨l, hl, rfl⟩
  have hcore := hfix a b hab l.1 hlmem
  rw [buildDetTran_eq t hl (hrepmem l hl) hnd hbnd haS,
    buildDetTran_eq t hl (hrepmem l hl) hnd hbnd hbS] at hcore
  exact pRepr_eq_sameCl hndF hneF hpermF (hclosed a haS l hl) (hclosed b hbS l hl) hcore


/-! ### Witnesses -/

theorem determine_budget_exact_w : (Determine exTaskB 1).2 = [] :=
  (determine_budget_exact exTaskB 1).1 (by decide)

theorem determine_initial_first_w :
    ∃ S conns, [Sink.acceptStates (σ := Nat) [0]] = Sink.acceptStates S :: conns ∧
      S.getD 0 exTaskC.initial = exTaskC.initial ∧ S ≠ [] :=
  determine_initial_first exTaskC 0 [Sink.acceptStates [0]] (by decide)

theorem determine_trace_shape_w :
    (∀ sts, Sink.acceptStates sts ∉ exConnsA) ∧
    (∀ l ∈ exTaskA.letters, (invLetters exTaskA.letters).getD l.2.1 0 = l.1) ∧
    ∃ dst : Nat → Nat → Nat,
      exConnsA = ((List.range ([0, 1, 2] : List Nat).length).filter
          (fun i => exTaskA.isRequired (([0, 1, 2] : List Nat).getD i exTaskA.initial))).flatMap
        fun i => (List.range exTaskA.letters.length).map
          fun c => Sink.connect i (dst i c) ((invLetters exTaskA.letters).getD c 0) :=
  determine_trace_shape exTaskA 10 [0, 1, 2] exConnsA (by unfold LettersWF; decide) (by decide)

theorem minimize_sound_w :
    exMin.sameClasses 1 2 = true ∧
    ∀ l ∈ exMin.letters, sameCl [[0], [1, 2]] (exMin.next 1 l.1) (exMin.next 2 l.1) :=
  minimize_sound exMin [[0], [1, 2]] (by decide)
    (by intro a; simp [exMin])
    (by
      intro a b h
      simp only [exMin] at h ⊢
      simp only [decide_eq_true_eq] at h ⊢
      exact h.symm)
    (by
      intro a b c2 h1 h2
      simp only [exMin] at h1 h2 ⊢
      simp only [decide_eq_true_eq] at h1 h2 ⊢
      exact h1.trans h2)
    (by decide) (by decide) (by decide)
    (by
      intro f hf l hl
      show (if f = 0 then 1 else 2) < 3
      split <;> omega)
    1 2 (by unfold sameCl; decide)

theorem minimize_requires_determined_w : Minimize exMinND = none :=
  minimize_requires_determined exMinND rfl

theorem determine_reachable_w : ReachC exConnsA 2 :=
  (determine_reachable exTaskA 10 [0, 1, 2] exConnsA (by unfold LettersWF; decide) (by decide)).2 2 (by decide)

theorem determine_budget_monotone_w :
    Determine exTaskA 11 = (true, Sink.acceptStates [0, 1, 2] :: exConnsA) :=
  determine_budget_monotone exTaskA 10 11 (by omega)
    (Sink.acceptStates [0, 1, 2] :: exConnsA) (by decide)

theorem minimize_terminates_w : (Minimize exMin).isSome :=
  (minimize_terminates exMin rfl).1

theorem determine_from_indices_w :
    (exConnsA.filter fun e => decide (srcOf e = some 2)).length =
      if exTaskA.isRequired (([0, 1, 2] : List Nat).getD 2 exTaskA.initial)
      then exTaskA.letters.length else 0 :=
  (determine_from_indices exTaskA 10 [0, 1, 2] exConnsA (by unfold LettersWF; decide) (by decide)).2 2 (by decide)

theorem determine_states_nodup_w : ([0, 1, 2] : List Nat).Nodup :=
  determine_states_nodup exTaskA 10 [0, 1, 2] exConnsA (by decide)

end Pire
